import Mathlib

/-!
# Verification of the PTag schema-to-model generation and drift-check pipeline

Shallow embedding, in Lean 4, of the code-generation and verification
scripts of the `civic-transparency-py-ptag-types` repository
(`.github/scripts/generate_types.py`, `release_check.py`,
`check_schema_hash.py`, `check_generated_types.py`), together with
theorems settling the frozen claims C1–C10 about them.

File contents are modelled as `List Char`; byte-level operations
(`read_bytes`, CRLF replacement, SHA-256 over UTF-8) act on `List Nat`
byte lists obtained by UTF-8 encoding.  The carriage-return and
line-feed bytes never occur inside a UTF-8 multi-byte sequence, so
CRLF handling on the character level agrees with the byte level.
-/

set_option maxRecDepth 100000

namespace PTagPipeline

/-! ## Bytes, UTF-8 and hexadecimal rendering -/

/-- UTF-8 encoding of a single Unicode code point (as in `str.encode("utf-8")`). -/
def utf8EncodeChar (n : Nat) : List Nat :=
  if n < 0x80 then [n]
  else if n < 0x800 then
    [0xC0 + n / 0x40, 0x80 + n % 0x40]
  else if n < 0x10000 then
    [0xE0 + n / 0x1000, 0x80 + n / 0x40 % 0x40, 0x80 + n % 0x40]
  else
    [0xF0 + n / 0x40000, 0x80 + n / 0x1000 % 0x40, 0x80 + n / 0x40 % 0x40, 0x80 + n % 0x40]

/-- UTF-8 encoding of a character sequence, the byte string hashed by
`hashlib.sha256(text.encode("utf-8"))`. -/
def utf8Encode (cs : List Char) : List Nat :=
  (cs.map (fun c => utf8EncodeChar c.toNat)).flatten

/-- The sixteen lowercase hexadecimal digit characters. -/
def hexDigits : List Char :=
  "0123456789abcdef".toList

/-- Lowercase hexadecimal digit for a nibble. -/
def hexChar (n : Nat) : Char :=
  hexDigits.getD (n % 16) '0'

/-- Fixed-width lowercase hexadecimal rendering (`k` digits, most significant first). -/
def toHexFixed : Nat → Nat → List Char
  | 0, _ => []
  | k + 1, n => toHexFixed k (n / 16) ++ [hexChar (n % 16)]

/-! ## SHA-256 (FIPS 180-4), over `Nat` with explicit reduction mod 2^32 -/

def w32 : Nat := 4294967296

/-- 32-bit rotate right. -/
def rotr (n x : Nat) : Nat :=
  (x / 2 ^ n + x % 2 ^ n * 2 ^ (32 - n)) % w32

/-- Logical right shift. -/
def shr (n x : Nat) : Nat := x / 2 ^ n

def bigSigma0 (x : Nat) : Nat := (rotr 2 x).xor ((rotr 13 x).xor (rotr 22 x))
def bigSigma1 (x : Nat) : Nat := (rotr 6 x).xor ((rotr 11 x).xor (rotr 25 x))
def smallSigma0 (x : Nat) : Nat := (rotr 7 x).xor ((rotr 18 x).xor (shr 3 x))
def smallSigma1 (x : Nat) : Nat := (rotr 17 x).xor ((rotr 19 x).xor (shr 10 x))

def chFn (x y z : Nat) : Nat := (x.land y).xor ((x.xor (w32 - 1)).land z)
def majFn (x y z : Nat) : Nat := (x.land y).xor ((x.land z).xor (y.land z))

/-- SHA-256 round constants. -/
def shaK : List Nat :=
  [1116352408, 1899447441, 3049323471, 3921009573, 961987163,
   1508970993, 2453635748, 2870763221, 3624381080, 310598401,
   607225278, 1426881987, 1925078388, 2162078206, 2614888103,
   3248222580, 3835390401, 4022224774, 264347078, 604807628,
   770255983, 1249150122, 1555081692, 1996064986, 2554220882,
   2821834349, 2952996808, 3210313671, 3336571891, 3584528711,
   113926993, 338241895, 666307205, 773529912, 1294757372,
   1396182291, 1695183700, 1986661051, 2177026350, 2456956037,
   2730485921, 2820302411, 3259730800, 3345764771, 3516065817,
   3600352804, 4094571909, 275423344, 430227734, 506948616,
   659060556, 883997877, 958139571, 1322822218, 1537002063,
   1747873779, 1955562222, 2024104815, 2227730452, 2361852424,
   2428436474, 2756734187, 3204031479, 3329325298]

def shaInit : List Nat :=
  [1779033703, 3144134277, 1013904242, 2773480762,
   1359893119, 2600822924, 528734635, 1541459225]

/-- Pad a message (list of bytes) per SHA-256: append 0x80, zeros to 56 mod 64,
and the bit length as an 8-byte big-endian integer. -/
def shaPad (msg : List Nat) : List Nat :=
  let len := msg.length
  let zeros := (64 - (len + 9) % 64) % 64
  let lenBits := len * 8
  msg ++ [0x80] ++ List.replicate zeros 0 ++
    [lenBits / 2 ^ 56 % 256, lenBits / 2 ^ 48 % 256, lenBits / 2 ^ 40 % 256,
     lenBits / 2 ^ 32 % 256, lenBits / 2 ^ 24 % 256, lenBits / 2 ^ 16 % 256,
     lenBits / 2 ^ 8 % 256, lenBits % 256]

/-- Group a byte list into 32-bit big-endian words. -/
def bytesToWords : List Nat → List Nat
  | a :: b :: c :: d :: rest => (((a * 256 + b) * 256 + c) * 256 + d) :: bytesToWords rest
  | _ => []

/-- Extend sixteen schedule words to sixty-four. -/
def extendSchedule (ws : List Nat) : Nat → List Nat
  | 0 => ws
  | k + 1 =>
    let i := ws.length
    let w := ((smallSigma1 (ws.getD (i - 2) 0) + ws.getD (i - 7) 0) % w32 +
              (smallSigma0 (ws.getD (i - 15) 0) + ws.getD (i - 16) 0) % w32) % w32
    extendSchedule (ws ++ [w]) k

/-- One round of the SHA-256 compression function. -/
def shaRound (st : List Nat) (kw : Nat × Nat) : List Nat :=
  match st with
  | [a, b, c, d, e, f, g, h] =>
    let t1 := ((h + bigSigma1 e) % w32 + (chFn e f g + kw.1) % w32 + kw.2) % w32
    let t2 := (bigSigma0 a + majFn a b c) % w32
    [(t1 + t2) % w32, a, b, c, (d + t1) % w32, e, f, g]
  | other => other

/-- Compress one 64-byte block into the running hash state. -/
def shaCompress (st : List Nat) (block : List Nat) : List Nat :=
  let sched := extendSchedule (bytesToWords block) 48
  let fin := (shaK.zip sched).foldl shaRound st
  (st.zip fin).map (fun p => (p.1 + p.2) % w32)

/-- Split into 64-byte blocks (structural recursion on a fuel bound so the
definition reduces inside the kernel). -/
def toBlocksFuel : Nat → List Nat → List (List Nat)
  | 0, _ => []
  | _, [] => []
  | fuel + 1, b :: bs => (b :: bs).take 64 :: toBlocksFuel fuel ((b :: bs).drop 64)

/-- Split into 64-byte blocks. -/
def toBlocks (bs : List Nat) : List (List Nat) :=
  toBlocksFuel bs.length bs

/-- SHA-256 digest of a byte list, as the list of eight 32-bit words. -/
def sha256Words (msg : List Nat) : List Nat :=
  (toBlocks (shaPad msg)).foldl shaCompress shaInit

/-- SHA-256 digest of a byte list rendered as 64 lowercase hex characters
(`hashlib.sha256(bytes).hexdigest()`). -/
def sha256Hex (msg : List Nat) : List Char :=
  (sha256Words msg).flatMap (fun wrd => toHexFixed 8 wrd)

/-- Embedding of `_sha256_text` (generate_types.py) and `_sha256`
(check_schema_hash.py): SHA-256 hex digest of the UTF-8 encoding of a text. -/
def sha256_text (text : List Char) : List Char :=
  sha256Hex (utf8Encode text)

/-! ## Line-ending normalization (`_normalize_line_endings`, generate_types.py)

The source reads the file as bytes and tests / replaces the two-byte
sequence `b"\r\n"`.  The CR and LF bytes never occur inside a UTF-8
multi-byte sequence, so the byte-level scan coincides with the
character-level scan modelled here. -/

/-- `b"\r\n" in content`. -/
def containsCRLF : List Char → Bool
  | [] => false
  | [_] => false
  | c :: d :: rest => (c == '\r' && d == '\n') || containsCRLF (d :: rest)

/-- `content.replace(b"\r\n", b"\n")`: left-to-right, non-overlapping. -/
def replaceCRLF : List Char → List Char
  | [] => []
  | [c] => [c]
  | c :: d :: rest =>
    if c == '\r' && d == '\n' then '\n' :: replaceCRLF rest
    else c :: replaceCRLF (d :: rest)

/-- Embedding of `_normalize_line_endings`: returns the resulting file
content together with the flag recording whether the file was rewritten. -/
def normalize_line_endings (content : List Char) : List Char × Bool :=
  if containsCRLF content then (replaceCRLF content, true) else (content, false)

/-- Whether the three-byte sequence CR CR LF occurs. -/
def containsCRCRLF : List Char → Bool
  | c :: d :: e :: rest => (c == '\r' && d == '\r' && e == '\n') || containsCRCRLF (d :: e :: rest)
  | _ => false

/-! ## `str.splitlines()` -/

/-- The line-boundary characters recognized by `str.splitlines()`. -/
def isLineBreak (c : Char) : Bool :=
  c == '\n' || c == '\r' || c == '\x0b' || c == '\x0c' ||
  c == '\x1c' || c == '\x1d' || c == '\x1e' || c == '\x85' ||
  c == '\u2028' || c == '\u2029'

/-- Worker for `splitlines`; `cur` is the current line, reversed. -/
def splitlinesGo : List Char → List Char → List (List Char)
  | cur, [] => if cur.isEmpty then [] else [cur.reverse]
  | cur, [c] => if isLineBreak c then [cur.reverse] else [(c :: cur).reverse]
  | cur, c :: d :: rest =>
    if c == '\r' && d == '\n' then cur.reverse :: splitlinesGo [] rest
    else if isLineBreak c then cur.reverse :: splitlinesGo [] (d :: rest)
    else splitlinesGo (c :: cur) (d :: rest)

/-- `text.splitlines()`. -/
def splitlines (cs : List Char) : List (List Char) :=
  splitlinesGo [] cs

/-! ## Provenance stamping (`_add_schema_header`, generate_types.py)

`Path.read_text` / `Path.write_text` are modelled as the identity on the
character sequence; `pkgver('civic-transparency-ptag-spec')` and the
schema file's text are parameters. -/

def headerNotice : List Char := "# AUTO-GENERATED: do not edit by hand".data

/-- The four-line header built by `_add_schema_header`. -/
def schemaHeader (schemaName schemaSha specVersion : List Char) : List Char :=
  (headerNotice ++ ['\n']) ++
  ("# source-schema: ".data ++ schemaName ++ ['\n']) ++
  ("# schema-sha256: ".data ++ schemaSha ++ ['\n']) ++
  ("# spec-version: ".data ++ specVersion ++ ['\n'])

/-- Embedding of `_add_schema_header`: normalize line endings, prepend the
provenance header (hashing the schema text as it is at this moment), and
normalize again. -/
def add_schema_header (content schemaText schemaName specVersion : List Char) : List Char :=
  let step1 := (normalize_line_endings content).1
  let header := schemaHeader schemaName (sha256_text schemaText) specVersion
  (normalize_line_endings (header ++ step1)).1

/-! ## Tag normalization (`_normalize_tag`, release_check.py) -/

/-- Whitespace stripped by `str.strip()` (ASCII part). -/
def isPySpace (c : Char) : Bool :=
  c == ' ' || c == '\t' || c == '\n' || c == '\r' || c == '\x0b' || c == '\x0c'

/-- `tag.strip()`. -/
def pstrip (cs : List Char) : List Char :=
  ((cs.dropWhile isPySpace).reverse.dropWhile isPySpace).reverse

/-- `raw[1:] if raw.startswith("v") else raw`. -/
def stripLeadingV (raw : List Char) : List Char :=
  if raw.head? == some 'v' then raw.tail else raw

/-- The character class `[0-9A-Za-z\.\-\+]` of the version-suffix part. -/
def semverSuffixChar (c : Char) : Bool :=
  c.isDigit || ('A' ≤ c && c ≤ 'Z') || ('a' ≤ c && c ≤ 'z') ||
  c == '.' || c == '-' || c == '+'

/-- A nonempty run of digits (`\d+`): returns the remainder, or `none`. -/
def parseDigits (cs : List Char) : Option (List Char) :=
  if (cs.takeWhile Char.isDigit).isEmpty then none
  else some (cs.dropWhile Char.isDigit)

/-- A literal dot: returns the remainder, or `none`. -/
def expectDot : List Char → Option (List Char)
  | c :: rest => if c == '.' then some rest else none
  | [] => none

/-- `re.fullmatch(r"\d+\.\d+\.\d+[0-9A-Za-z\.\-\+]*", plain)` as a matcher:
digits, dot, digits, dot, digits, then only suffix-class characters. -/
def semverLike (cs : List Char) : Bool :=
  (((((parseDigits cs).bind expectDot).bind
      (fun r1 => (parseDigits r1).bind expectDot)).bind
      (fun r2 => parseDigits r2)).map
      (fun r3 => r3.all semverSuffixChar)).getD false

/-- Embedding of `_normalize_tag`: `some (raw, plain)` on success, `none`
for the `SystemExit` invalid-tag failure. -/
def normalize_tag (tag : List Char) : Option (List Char × List Char) :=
  let raw := pstrip tag
  let plain := stripLeadingV raw
  if semverLike plain then some (raw, plain) else none

/-- The spec's wording of the accepted pattern: three dot-separated
(nonempty) digit groups followed by an optional alphanumeric, dot, dash, plus suffix. -/
def semverSpec (cs : List Char) : Prop :=
  ∃ d1 d2 d3 s : List Char,
    cs = d1 ++ '.' :: (d2 ++ '.' :: (d3 ++ s)) ∧
    d1 ≠ [] ∧ d2 ≠ [] ∧ d3 ≠ [] ∧
    (∀ c ∈ d1, c.isDigit = true) ∧ (∀ c ∈ d2, c.isDigit = true) ∧
    (∀ c ∈ d3, c.isDigit = true) ∧ (∀ c ∈ s, semverSuffixChar c = true)

/-! ## Symbol resolution (`_classes_in_file`, `_resolve_symbols`, generate_types.py) -/

/-- Split a text at `'\n'` characters: the positions where the `re.MULTILINE`
anchor `^` can match. -/
def splitOnLF : List Char → List (List Char)
  | [] => [[]]
  | c :: rest =>
    if c == '\n' then [] :: splitOnLF rest
    else
      match splitOnLF rest with
      | [] => [[c]]
      | l :: ls => (c :: l) :: ls

/-- Literal-prefix stripping. -/
def stripPrefixChars : List Char → List Char → Option (List Char)
  | [], cs => some cs
  | _ :: _, [] => none
  | p :: ps, c :: cs => if c == p then stripPrefixChars ps cs else none

def isIndentChar (c : Char) : Bool := c == ' ' || c == '\t'

def isIdentStart (c : Char) : Bool := c.isAlpha || c == '_'

def isIdentChar (c : Char) : Bool := c.isAlphanum || c == '_'

/-- The class-definition pattern
`^[ \t]*class[ \t]+(?P<name>[A-Za-z_][A-Za-z0-9_]*)\(` applied at the start
of one line: returns the captured name on a match. -/
def classDefName (line : List Char) : Option (List Char) :=
  let afterIndent := line.dropWhile isIndentChar
  match stripPrefixChars "class".data afterIndent with
  | none => none
  | some r1 =>
    match r1 with
    | [] => none
    | c :: _ =>
      if isIndentChar c then
        match r1.dropWhile isIndentChar with
        | [] => none
        | d :: ds =>
          if isIdentStart d then
            match ds.dropWhile isIdentChar with
            | '(' :: _ => some (d :: ds.takeWhile isIdentChar)
            | _ => none
          else none
      else none

/-- Embedding of `_classes_in_file`: the class names declared in a file's
text (as a list; the source builds a set). -/
def classes_in_file (text : List Char) : List (List Char) :=
  (splitOnLF text).filterMap classDefName

/-- Lexicographic (code-point) order on names, as `sorted()` uses. -/
def listCharLe : List Char → List Char → Bool
  | [], _ => true
  | _ :: _, [] => false
  | x :: xs, y :: ys => if x == y then listCharLe xs ys else decide (x < y)

def insertSorted (x : List Char) : List (List Char) → List (List Char)
  | [] => [x]
  | y :: ys => if listCharLe x y then x :: y :: ys else y :: insertSorted x ys

def sortStrings : List (List Char) → List (List Char)
  | [] => []
  | x :: xs => insertSorted x (sortStrings xs)

/-- `sorted(set_of_names)`. -/
def sortedClasses (text : List Char) : List (List Char) :=
  sortStrings (classes_in_file text).dedup

/-- The payload of the `RuntimeError` raised by `_resolve_symbols`: the
expected symbol and the sorted list of class names actually found. -/
structure MissingSymbol where
  expected : List Char
  found : List (List Char)
deriving DecidableEq

/-- Embedding of `_resolve_symbols`: PTag must exist in the ptag file,
PTagSeries and PTagInterval in the series file; checked in that order. -/
def resolve_symbols (sText pText : List Char) :
    Except MissingSymbol (List Char × List Char × List Char) :=
  let s_classes := classes_in_file sText
  let p_classes := classes_in_file pText
  if "PTag".data ∈ p_classes then
    if "PTagSeries".data ∈ s_classes then
      if "PTagInterval".data ∈ s_classes then
        Except.ok ("PTag".data, "PTagSeries".data, "PTagInterval".data)
      else Except.error ⟨"PTagInterval".data, sortedClasses sText⟩
    else Except.error ⟨"PTagSeries".data, sortedClasses sText⟩
  else Except.error ⟨"PTag".data, sortedClasses pText⟩

/-! ## Wheel-version parsing and the release version check (release_check.py) -/

/-- Case-insensitive literal match (re.IGNORECASE): returns the remainder. -/
def matchCI : List Char → List Char → Option (List Char)
  | [], cs => some cs
  | _ :: _, [] => none
  | p :: ps, c :: cs => if c.toLower == p.toLower then matchCI ps cs else none

/-- The `[_-]` character class. -/
def sepUS : List Char → Option (List Char)
  | c :: cs => if c == '_' || c == '-' then some cs else none
  | [] => none

/-- `WHEEL_NAME_RX = civic[_-]transparency[_-]types-([0-9][^-]*)-py`
(IGNORECASE) tried at one position: returns the captured version group. -/
def wheelRxAt (cs : List Char) : Option (List Char) :=
  (matchCI "civic".data cs).bind fun r1 =>
  (sepUS r1).bind fun r2 =>
  (matchCI "transparency".data r2).bind fun r3 =>
  (sepUS r3).bind fun r4 =>
  (matchCI "types-".data r4).bind fun r5 =>
  match r5 with
  | [] => none
  | d :: rest =>
    if d.isDigit then
      match matchCI "-py".data (rest.dropWhile (fun c => !(c == '-'))) with
      | some _ => some (d :: rest.takeWhile (fun c => !(c == '-')))
      | none => none
    else none

/-- `re.search`: leftmost match over all start positions. -/
def reSearch (f : List Char → Option (List Char)) : List Char → Option (List Char)
  | [] => f []
  | c :: cs =>
    match f (c :: cs) with
    | some v => some v
    | none => reSearch f cs

inductive WheelErr where
  | noWheel
  | cannotParse (name : List Char)
deriving DecidableEq

/-- Embedding of `_wheel_version`: first wheel in sorted order, parsed by
`WHEEL_NAME_RX`; `SystemExit` on no wheel or no regex match. -/
def wheel_version (wheels : List (List Char)) : Except WheelErr (List Char) :=
  match sortStrings wheels with
  | [] => Except.error WheelErr.noWheel
  | w :: _ =>
    match reSearch wheelRxAt w with
    | some v => Except.ok v
    | none => Except.error (WheelErr.cannotParse w)

inductive PreflightResult where
  | ok
  | invalidTag
  | noWheel
  | cannotParse (name : List Char)
  | versionMismatch (wheelVer tagVer : List Char)
deriving DecidableEq

/-- Embedding of the tag-normalize / wheel-version steps of `main`
(release_check.py): `ok` means the version sanity check passed. -/
def release_version_check (wheels : List (List Char)) (tag : List Char) : PreflightResult :=
  match normalize_tag tag with
  | none => .invalidTag
  | some (_, plain) =>
    match wheel_version wheels with
    | .error .noWheel => .noWheel
    | .error (.cannotParse w) => .cannotParse w
    | .ok hv => if hv = plain then .ok else .versionMismatch hv plain

/-! ## Directory-tree comparison (`_compare_dirs`, release_check.py)

A directory tree is a finite map from relative path to file bytes. -/

def Tree : Type := List (List Char × List Nat)

def treePaths (t : Tree) : List (List Char) := t.map Prod.fst

/-- Content of the file at a path (the empty file when absent). -/
def lookupTree (t : Tree) (p : List Char) : List Nat :=
  match t.find? (fun e => e.1 == p) with
  | some e => e.2
  | none => []

/-- `", ".join(...)`. -/
def joinComma (l : List (List Char)) : List Char :=
  (l.intersperse ", ".data).flatten

/-- `sorted(set(a_files) - set(b_files))`. -/
def missingPaths (a b : Tree) : List (List Char) :=
  sortStrings ((treePaths a).filter (fun p => decide (p ∉ treePaths b)))

/-- `sorted(set(a_files) & set(b_files))`. -/
def sharedPaths (a b : Tree) : List (List Char) :=
  sortStrings ((treePaths a).filter (fun p => decide (p ∈ treePaths b)))

/-- Embedding of `_compare_dirs`: the human-readable drift report.  No path
is excluded; files are compared by SHA-256 of their bytes. -/
def compare_dirs (a b : Tree) : List (List Char) :=
  let missing_in_b := missingPaths a b
  let missing_in_a := missingPaths b a
  (if missing_in_b.isEmpty then []
    else ["Missing in committed types: ".data ++ joinComma missing_in_b]) ++
  (if missing_in_a.isEmpty then []
    else ["Extra files in committed types: ".data ++ joinComma missing_in_a]) ++
  (sharedPaths a b).filterMap (fun p =>
    if sha256Hex (lookupTree a p) ≠ sha256Hex (lookupTree b p) then
      some ("Content differs: ".data ++ p)
    else none)

/-! ## Generated series model (points default), modelled from the spec

The generated `ptag_series.py` model file is not part of the repository
snapshot (only its tests and checkers are), so the validation semantics of
the generated series type are modelled from the spec. -/

/-- Modelled from the spec: a point of the series is an opaque mapping of
fields (its internal structure is irrelevant to the points-default claim). -/
structure PTagSeriesPoint where
  fields : List (List Char × List Char)

/-- A field mapping offered for validation: each field either present or
absent. -/
structure PTagSeriesMapping where
  topic : Option (List Char)
  generated_at : Option (List Char)
  interval : Option (List Char)
  points : Option (List PTagSeriesPoint)

/-- Modelled from the spec: the validated series instance. -/
structure PTagSeries where
  topic : List Char
  generated_at : List Char
  interval : List Char
  points : List PTagSeriesPoint

/-- Modelled from the spec: `PTagSeries.model_validate` — the three scalar
fields are required; the points field has a generated default
(`default_factory=list`), so an omitted points field validates to the empty
sequence and an empty sequence passes validation. -/
def validateSeries (m : PTagSeriesMapping) : Option PTagSeries :=
  match m.topic, m.generated_at, m.interval with
  | some t, some g, some i => some ⟨t, g, i, m.points.getD []⟩
  | _, _, _ => none

/-! ## Schema hash check (check_schema_hash.py) -/

/-- The whitespace class `\s` of the header regex (ASCII part). -/
def isPyRegexSpace (c : Char) : Bool :=
  c == ' ' || c == '\t' || c == '\n' || c == '\r' || c == '\x0b' || c == '\x0c'

/-- The value class `[0-9a-zA-Z._-]` of the header regex. -/
def headerValChar (c : Char) : Bool :=
  c.isAlphanum || c == '.' || c == '_' || c == '-'

/-- `\s*$` of the header regex in multiline mode: some whitespace prefix ends
immediately before a newline or at the end of the text. -/
def wsToEol : List Char → Bool
  | [] => true
  | c :: rest =>
    if c == '\n' then true
    else if isPyRegexSpace c then wsToEol rest else false

/-- The pattern `^#\s*<key>:\s*([0-9a-zA-Z._-]+)\s*$` (re.M) tried at one
line-start position: returns the captured value. -/
def headerValAt (key : List Char) (cs : List Char) : Option (List Char) :=
  match cs with
  | [] => none
  | c :: rest =>
    if c == '#' then
      match stripPrefixChars key (rest.dropWhile isPyRegexSpace) with
      | none => none
      | some r2 =>
        match r2 with
        | [] => none
        | x :: r3 =>
          if x == ':' then
            let r4 := r3.dropWhile isPyRegexSpace
            let v := r4.takeWhile headerValChar
            if v.isEmpty then none
            else if wsToEol (r4.dropWhile headerValChar) then some v else none
          else none
    else none

/-- Try the pattern at every line start strictly after the text's start. -/
def searchLineStartsAux (f : List Char → Option (List Char)) : List Char → Option (List Char)
  | [] => none
  | c :: rest =>
    if c == '\n' then
      match f rest with
      | some v => some v
      | none => searchLineStartsAux f rest
    else searchLineStartsAux f rest

/-- Embedding of `_header_val`: `re.search` of the multiline-anchored header
pattern — the match at the earliest line start. -/
def header_val (text key : List Char) : Option (List Char) :=
  match headerValAt key text with
  | some v => some v
  | none => searchLineStartsAux (headerValAt key) text

/-- `"\n".join(lines)`. -/
def joinLF (ls : List (List Char)) : List Char :=
  (ls.intersperse ['\n']).flatten

/-- The 20-line window `py_path.read_text().splitlines()[:20]` joined with
newlines, in which `main` looks for the header. -/
def headerWindow (content : List Char) : List Char :=
  joinLF ((splitlines content).take 20)

def stampedNameOf (content : List Char) : Option (List Char) :=
  header_val (headerWindow content) "source-schema".data

def stampedShaOf (content : List Char) : Option (List Char) :=
  header_val (headerWindow content) "schema-sha256".data

/-- One tracked schema of `TARGETS`: its schema filename, the committed
generated file's content (if the file exists) and the installed schema text. -/
structure TargetState where
  schemaName : List Char
  file : Option (List Char)
  schemaText : List Char

/-- The `FAIL:` report lines of check_schema_hash.py's `main`. -/
inductive HashCheckMsg where
  | missingFile (schemaName : List Char)
  | badHeader (schemaName : List Char)
  | hashMismatch (schemaName : List Char) (stamped actual : List Char)
  | seriesValidationFail
deriving DecidableEq

/-- The per-target body of the `for schema_name, py_path in TARGETS.items()`
loop (each `continue` ends the iteration with the failure recorded). -/
def checkTarget (t : TargetState) : List HashCheckMsg :=
  match t.file with
  | none => [.missingFile t.schemaName]
  | some content =>
    match stampedShaOf content with
    | none => [.badHeader t.schemaName]
    | some sha =>
      if stampedNameOf content = some t.schemaName then
        if sha256_text t.schemaText ≠ sha then
          [.hashMismatch t.schemaName sha (sha256_text t.schemaText)]
        else []
      else [.badHeader t.schemaName]

/-- The inputs `main` reads: the two committed generated files, the two
installed schema texts, and the outcome of the bonus empty-points
validation of the imported Series model. -/
structure HashCheckEnv where
  seriesFile : Option (List Char)
  ptagFile : Option (List Char)
  seriesSchemaText : List Char
  ptagSchemaText : List Char
  seriesEmptyOk : Bool

/-- The `TARGETS` table, in source order. -/
def hashCheckTargets (env : HashCheckEnv) : List TargetState :=
  [⟨"series.schema.json".data, env.seriesFile, env.seriesSchemaText⟩,
   ⟨"provenance_tag.schema.json".data, env.ptagFile, env.ptagSchemaText⟩]

/-- Embedding of `main` (check_schema_hash.py): the list of failure reports
in order, and the process exit status. -/
def check_schema_hash_main (env : HashCheckEnv) : List HashCheckMsg × Nat :=
  let msgs := ((hashCheckTargets env).map checkTarget).flatten ++
    (if env.seriesEmptyOk then [] else [.seriesValidationFail])
  (msgs, if msgs.isEmpty then 0 else 1)

def isMismatch : HashCheckMsg → Bool
  | .hashMismatch .. => true
  | _ => false

/-- A committed series file stamped with the wrong hash `deadbeef`. -/
def c3SeriesBad : List Char :=
  joinLF ["# source-schema: series.schema.json".data,
          "# schema-sha256: deadbeef".data]

/-- A committed series file stamped with the correct hash of the schema `{}`. -/
def c3SeriesGood : List Char :=
  joinLF ["# source-schema: series.schema.json".data,
          "# schema-sha256: ".data ++ sha256_text "{}".data]

/-- A committed record file stamped with the correct hash of the schema `{}`. -/
def c3PtagGood : List Char :=
  joinLF ["# source-schema: provenance_tag.schema.json".data,
          "# schema-sha256: ".data ++ sha256_text "{}".data]

/-- Series hash stale, record hash current. -/
def c3EnvBad : HashCheckEnv :=
  ⟨some c3SeriesBad, some c3PtagGood, "{}".data, "{}".data, true⟩

/-- Everything current. -/
def c3EnvGood : HashCheckEnv :=
  ⟨some c3SeriesGood, some c3PtagGood, "{}".data, "{}".data, true⟩

/-- A committed series file whose schema-sha256 value contains a `+`. -/
def c10PlusContent (v : List Char) : List Char :=
  joinLF ["# source-schema: series.schema.json".data,
          "# schema-sha256: ".data ++ v]

/-- 21 filler lines pushing the real header past the parsed window. -/
def c10LateHeader : List Char :=
  joinLF (List.replicate 21 "x".data ++
    ["# source-schema: series.schema.json".data,
     "# schema-sha256: ".data ++ sha256_text "{}".data])

def c10EnvLate : HashCheckEnv :=
  ⟨some c10LateHeader, some c3PtagGood, "{}".data, "{}".data, true⟩

def c10EnvPlus : HashCheckEnv :=
  ⟨some (c10PlusContent "abc+def".data), some c3PtagGood, "{}".data, "{}".data, true⟩


/-! ## The points-field patch (`_fix_points_field`, generate_types.py) -/

/-- `\\s*` — maximal whitespace run (may cross newlines, as `\\s` does). -/
def skipWS (cs : List Char) : List Char := cs.dropWhile isPyRegexSpace

/-- A single expected character: returns the remainder, or `none`. -/
def expectChar (ch : Char) : List Char → Option (List Char)
  | c :: rest => if c == ch then some rest else none
  | [] => none

/-- The trailing part `\s*(?:#\s*type:\s*ignore)?\s*$` of the already-patched
pattern: either whitespace up to a line end, or whitespace, the type-ignore
comment and whitespace up to a line end. -/
def tailOk (r : List Char) : Bool :=
  wsToEol r ||
  (((expectChar '#' (skipWS r)).bind fun r2 =>
    (stripPrefixChars "type:".data (skipWS r2)).bind fun r3 =>
    (stripPrefixChars "ignore".data (skipWS r3)).map fun r4 => wsToEol r4).getD false)

/-- The already-patched pattern (`already_ok` in the source) tried at one
line-start position: indent, `points:`, the list type, `=`,
`Field(default_factory=list)` with whitespace freedom, then `tailOk`. -/
def alreadyOkAt (cs : List Char) : Bool :=
  (((stripPrefixChars "points:".data (cs.dropWhile isIndentChar)).bind fun r1 =>
    (stripPrefixChars "list[PTagSeriesPoint]".data (skipWS r1)).bind fun r2 =>
    (expectChar '=' (skipWS r2)).bind fun r3 =>
    (stripPrefixChars "Field(".data (skipWS r3)).bind fun r4 =>
    (stripPrefixChars "default_factory".data (skipWS r4)).bind fun r5 =>
    (expectChar '=' (skipWS r5)).bind fun r6 =>
    (stripPrefixChars "list".data (skipWS r6)).bind fun r7 =>
    (expectChar ')' (skipWS r7)).map fun r8 => tailOk r8).getD false)

def searchAlreadyOkGo : List Char → Bool
  | [] => false
  | c :: rest => (c == '\n' && alreadyOkAt rest) || searchAlreadyOkGo rest

/-- `re.search` of the already-patched pattern over all line starts. -/
def searchAlreadyOk (cs : List Char) : Bool :=
  alreadyOkAt cs || searchAlreadyOkGo cs

/-- The rewrite pattern
`(?P<indent>^[ \t]*)points:\s*list\[PTagSeriesPoint\]\s*=\s*Field\([^)]*\)`
tried at one line-start position: on a match, the captured indent and the
text after the matched span. -/
def pattern2At (cs : List Char) : Option (List Char × List Char) :=
  (stripPrefixChars "points:".data (cs.dropWhile isIndentChar)).bind fun r1 =>
  (stripPrefixChars "list[PTagSeriesPoint]".data (skipWS r1)).bind fun r2 =>
  (expectChar '=' (skipWS r2)).bind fun r3 =>
  (stripPrefixChars "Field(".data (skipWS r3)).bind fun r4 =>
  (expectChar ')' (r4.dropWhile (fun c => !(c == ')')))).map fun r5 =>
  (cs.takeWhile isIndentChar, r5)

/-- The replacement text
`\g<indent>points: list[PTagSeriesPoint] = Field(default_factory=list)  # type: ignore`
without its indent group. -/
def patchedLine : List Char :=
  "points: list[PTagSeriesPoint] = Field(default_factory=list)  # type: ignore".data

def subPointsGo : List Char → Option (List Char)
  | [] => none
  | c :: rest =>
    if c == '\n' then
      match pattern2At rest with
      | some (indent, r) => some (c :: (indent ++ (patchedLine ++ r)))
      | none => (subPointsGo rest).map (fun out => c :: out)
    else (subPointsGo rest).map (fun out => c :: out)

/-- `pattern.sub(replacement, text, count=1)`: replace the leftmost
(line-start) match, or `none` when the pattern is absent. -/
def subPoints (cs : List Char) : Option (List Char) :=
  match pattern2At cs with
  | some (indent, r) => some (indent ++ (patchedLine ++ r))
  | none => subPointsGo cs

/-- Embedding of `_fix_points_field`: the returned flag and the file's
resulting content (unchanged when no write happens). -/
def fix_points_field (text : List Char) : Bool × List Char :=
  if searchAlreadyOk text then (false, text)
  else
    match subPoints text with
    | none => (false, text)
    | some text2 => (true, (normalize_line_endings text2).1)

/-! ## Theorems -/

theorem toHexFixed_length (k n : Nat) : (toHexFixed k n).length = k := by
  induction k generalizing n with
  | zero => rfl
  | succ k ih => simp [toHexFixed, ih]

theorem hexChar_mem_hexDigits (n : Nat) : hexChar n ∈ hexDigits := by
  have h : n % 16 < 16 := Nat.mod_lt _ (by norm_num)
  unfold hexChar
  interval_cases h : n % 16 <;> simp [hexDigits]

theorem toHexFixed_mem (k n : Nat) : ∀ c ∈ toHexFixed k n, c ∈ hexDigits := by
  induction k generalizing n with
  | zero => intro c hc; simp [toHexFixed] at hc
  | succ k ih =>
    intro c hc
    simp only [toHexFixed, List.mem_append, List.mem_singleton] at hc
    rcases hc with h | h
    · exact ih _ c h
    · subst h; exact hexChar_mem_hexDigits _

theorem containsCRLF_cons (c : Char) (cs : List Char) :
    containsCRLF (c :: cs) = ((c == '\r' && cs.head? == some '\n') || containsCRLF cs) := by
  cases cs with
  | nil => simp [containsCRLF]
  | cons d rest => simp [containsCRLF]

theorem containsCRCRLF_cons (c : Char) (cs : List Char) :
    containsCRCRLF (c :: cs) =
      ((c == '\r' && cs.head? == some '\r' && cs.tail.head? == some '\n')
        || containsCRCRLF cs) := by
  match cs with
  | [] => simp [containsCRCRLF]
  | [d] => simp [containsCRCRLF]
  | d :: e :: rest => simp [containsCRCRLF]

theorem containsCRCRLF_tail (x : Char) (xs : List Char)
    (h : containsCRCRLF (x :: xs) = false) : containsCRCRLF xs = false := by
  match xs with
  | [] => rfl
  | [_] => rfl
  | y :: z :: rs =>
    rw [containsCRCRLF_cons] at h
    exact (Bool.or_eq_false_iff.mp h).2

theorem head?_replaceCRLF_cons (c d : Char) (rest : List Char) :
    (replaceCRLF (c :: d :: rest)).head? =
      some (if c == '\r' && d == '\n' then '\n' else c) := by
  simp only [replaceCRLF]
  by_cases hcd : (c == '\r' && d == '\n') = true
  · simp [hcd]
  · simp [hcd]

/-- If the content has no CR CR LF, the replaced content has no CRLF. -/
theorem replaceCRLF_no_crlf (cs : List Char) (h : containsCRCRLF cs = false) :
    containsCRLF (replaceCRLF cs) = false := by
  induction cs using replaceCRLF.induct with
  | case1 => simp [replaceCRLF, containsCRLF]
  | case2 c => simp [replaceCRLF, containsCRLF]
  | case3 c d rest hcd ih =>
    have hrest : containsCRCRLF rest = false :=
      containsCRCRLF_tail d _ (containsCRCRLF_tail c _ h)
    simp only [replaceCRLF, hcd, if_true]
    rw [containsCRLF_cons]
    simp [ih hrest]
  | case4 c d rest hcd ih =>
    have hrest : containsCRCRLF (d :: rest) = false := containsCRCRLF_tail c _ h
    have ih' := ih hrest
    simp only [replaceCRLF]
    rw [if_neg hcd]
    rw [containsCRLF_cons]
    simp only [ih', Bool.or_false]
    by_cases hc : c = '\r'
    · subst hc
      have hd : (d == '\n') = false := by
        by_contra hcon
        exact hcd (by simp_all)
      match rest with
      | [] => simp [replaceCRLF, hd]
      | r :: rs =>
        rw [head?_replaceCRLF_cons]
        by_cases hdr : (d == '\r' && r == '\n') = true
        · exfalso
          have hd' : d = '\r' := by simpa using (Bool.and_eq_true_iff.mp hdr).1
          have hr' : r = '\n' := by simpa using (Bool.and_eq_true_iff.mp hdr).2
          subst hd'; subst hr'
          rw [containsCRCRLF_cons] at h
          simp at h
        · rw [if_neg hdr]
          simp [hd]
    · simp [hc]

/-- Claim C8 as stated is false: on content CR CR LF, `_normalize_line_endings`
rewrites the file yet the result CR LF still contains a CRLF. -/
theorem claim_C8_counterexample :
    containsCRLF (normalize_line_endings ['\r', '\r', '\n']).1 = true := by decide

/-- C8 (amended): if the content contains no CR CR LF byte sequence, after
`_normalize_line_endings` runs the file contains no CRLF; and if the content
already contained no CRLF, the file is not rewritten and its bytes are
unchanged. -/
theorem claim_C8_normalize_line_endings (content : List Char) :
    (containsCRCRLF content = false →
      containsCRLF (normalize_line_endings content).1 = false) ∧
    (containsCRLF content = false →
      normalize_line_endings content = (content, false)) := by
  constructor
  · intro h
    unfold normalize_line_endings
    split
    · exact replaceCRLF_no_crlf content h
    · rename_i hno
      simpa using hno
  · intro h
    unfold normalize_line_endings
    simp [h]

/-- Witness for C8 at the concrete content `"a\rb"`. -/
theorem claim_C8_witness :
    containsCRLF (normalize_line_endings ['a', '\r', 'b']).1 = false ∧
    normalize_line_endings ['a', '\r', 'b'] = (['a', '\r', 'b'], false) :=
  ⟨(claim_C8_normalize_line_endings ['a', '\r', 'b']).1 (by decide),
   (claim_C8_normalize_line_endings ['a', '\r', 'b']).2 (by decide)⟩

/-! ## Digest shape lemmas -/

theorem shaRound_length (st : List Nat) (kw : Nat × Nat) :
    (shaRound st kw).length = st.length := by
  unfold shaRound
  split
  · simp
  · rfl

theorem foldl_shaRound_length (l : List (Nat × Nat)) (st : List Nat) :
    (l.foldl shaRound st).length = st.length := by
  induction l generalizing st with
  | nil => rfl
  | cons kw l ih => simp [List.foldl_cons, ih, shaRound_length]

theorem shaCompress_length (st block : List Nat) :
    (shaCompress st block).length = st.length := by
  unfold shaCompress
  simp [List.length_zip, foldl_shaRound_length]

theorem sha256Words_length (msg : List Nat) : (sha256Words msg).length = 8 := by
  unfold sha256Words
  generalize toBlocks (shaPad msg) = blocks
  have h : ∀ (bl : List (List Nat)) (st : List Nat),
      (bl.foldl shaCompress st).length = st.length := by
    intro bl
    induction bl with
    | nil => intro st; rfl
    | cons b bl ih => intro st; simp [List.foldl_cons, ih, shaCompress_length]
  rw [h]
  rfl

theorem flatMap_toHexFixed_length (ws : List Nat) :
    (ws.flatMap (fun wrd => toHexFixed 8 wrd)).length = 8 * ws.length := by
  induction ws with
  | nil => rfl
  | cons w ws ih =>
    simp only [List.flatMap_cons, List.length_append, ih, toHexFixed_length,
      List.length_cons]
    ring

theorem sha256Hex_length (msg : List Nat) : (sha256Hex msg).length = 64 := by
  unfold sha256Hex
  rw [flatMap_toHexFixed_length, sha256Words_length]

theorem sha256Hex_mem (msg : List Nat) : ∀ c ∈ sha256Hex msg, c ∈ hexDigits := by
  intro c hc
  unfold sha256Hex at hc
  rcases List.mem_flatMap.mp hc with ⟨w, _, hcw⟩
  exact toHexFixed_mem 8 w c hcw

theorem sha256_text_length (text : List Char) : (sha256_text text).length = 64 :=
  sha256Hex_length _

theorem sha256_text_mem (text : List Char) : ∀ c ∈ sha256_text text, c ∈ hexDigits :=
  sha256Hex_mem _

theorem isLineBreak_cr_false (x : Char) (hx : isLineBreak x = false) : (x == '\r') = false := by
  cases hxr : (x == '\r') with
  | false => rfl
  | true =>
    have hx' : x = '\r' := by simpa using hxr
    subst hx'
    exact absurd hx (by decide)

theorem splitlinesGo_line (l : List Char) (h : ∀ c ∈ l, isLineBreak c = false) :
    ∀ (cur rest : List Char),
      splitlinesGo cur (l ++ '\n' :: rest) = (cur.reverse ++ l) :: splitlinesGo [] rest := by
  induction l with
  | nil =>
    intro cur rest
    cases rest with
    | nil => simp [splitlinesGo, splitlines, isLineBreak]
    | cons r rs => simp [splitlinesGo, isLineBreak]
  | cons x l' ih =>
    intro cur rest
    have hx : isLineBreak x = false := h x (List.mem_cons_self x l')
    have hxr : (x == '\r') = false := isLineBreak_cr_false x hx
    have hl' : ∀ c ∈ l', isLineBreak c = false := fun c hc => h c (List.mem_cons_of_mem x hc)
    have step := ih hl' (x :: cur) rest
    cases l' with
    | nil =>
      simp only [List.nil_append] at step
      simp only [List.cons_append, List.nil_append, splitlinesGo, hxr, Bool.false_and, hx]
      rw [if_neg (by simp), if_neg (by simp)]
      rw [step]
      simp
    | cons y l'' =>
      simp only [List.cons_append] at step
      simp only [List.cons_append, splitlinesGo, hxr, Bool.false_and, hx]
      rw [if_neg (by simp), if_neg (by simp)]
      simp only [List.append_eq]
      rw [step]
      simp

theorem containsCRLF_append (a b : List Char)
    (ha : ∀ c ∈ a, (c == '\r') = false) (hb : containsCRLF b = false) :
    containsCRLF (a ++ b) = false := by
  induction a with
  | nil => simpa using hb
  | cons x a' ih =>
    rw [List.cons_append, containsCRLF_cons]
    have hx := ha x (List.mem_cons_self x a')
    simp only [hx, Bool.false_and, Bool.false_or]
    exact ih fun c hc => ha c (List.mem_cons_of_mem x hc)

theorem schemaHeader_no_cr (schemaName schemaSha specVersion : List Char)
    (hname : ∀ c ∈ schemaName, isLineBreak c = false)
    (hsha : ∀ c ∈ schemaSha, c ∈ hexDigits)
    (hver : ∀ c ∈ specVersion, isLineBreak c = false) :
    ∀ c ∈ schemaHeader schemaName schemaSha specVersion, (c == '\r') = false := by
  have hhex_cr : ∀ x ∈ hexDigits, (x == '\r') = false := by decide
  have hnotice : ∀ x ∈ headerNotice, (x == '\r') = false := by decide
  have hlitA : ∀ x ∈ "# source-schema: ".data, (x == '\r') = false := by decide
  have hlitB : ∀ x ∈ "# schema-sha256: ".data, (x == '\r') = false := by decide
  have hlitC : ∀ x ∈ "# spec-version: ".data, (x == '\r') = false := by decide
  intro c hc
  simp only [schemaHeader, List.append_assoc, List.mem_append, List.mem_singleton] at hc
  rcases hc with h | h | h | h | h | h | h | h | h | h | h
  · exact hnotice c h
  · subst h; decide
  · exact hlitA c h
  · exact isLineBreak_cr_false c (hname c h)
  · subst h; decide
  · exact hlitB c h
  · exact hhex_cr c (hsha c h)
  · subst h; decide
  · exact hlitC c h
  · exact isLineBreak_cr_false c (hver c h)
  · subst h; decide

/-- C1: after `_add_schema_header` runs on a file whose prior content has no
CRLF, with a schema filename and spec version free of line-break characters,
the result is exactly the four-line header followed by the unchanged prior
content; its first four lines are the do-not-edit notice, the source-schema
line, the schema-sha256 line (stamping the SHA-256 of the schema text at the
moment of stamping) and the spec-version line; and the stamped digest is 64
lowercase hex characters. -/
theorem claim_C1_add_schema_header (content schemaText schemaName specVersion : List Char)
    (hcontent : containsCRLF content = false)
    (hname : ∀ c ∈ schemaName, isLineBreak c = false)
    (hver : ∀ c ∈ specVersion, isLineBreak c = false) :
    add_schema_header content schemaText schemaName specVersion =
      schemaHeader schemaName (sha256_text schemaText) specVersion ++ content ∧
    splitlines (add_schema_header content schemaText schemaName specVersion) =
      headerNotice ::
      ("# source-schema: ".data ++ schemaName) ::
      ("# schema-sha256: ".data ++ sha256_text schemaText) ::
      ("# spec-version: ".data ++ specVersion) :: splitlines content ∧
    (sha256_text schemaText).length = 64 ∧
    (∀ c ∈ sha256_text schemaText, c ∈ hexDigits) := by
  have hnocr := schemaHeader_no_cr schemaName (sha256_text schemaText) specVersion
    hname (sha256_text_mem schemaText) hver
  have hstep1 : (normalize_line_endings content).1 = content := by
    unfold normalize_line_endings
    simp [hcontent]
  have hwhole : containsCRLF
      (schemaHeader schemaName (sha256_text schemaText) specVersion ++ content) = false :=
    containsCRLF_append _ _ hnocr hcontent
  have hmain : add_schema_header content schemaText schemaName specVersion =
      schemaHeader schemaName (sha256_text schemaText) specVersion ++ content := by
    unfold add_schema_header
    rw [hstep1]
    unfold normalize_line_endings
    simp [hwhole]
  refine ⟨hmain, ?_, sha256_text_length schemaText, sha256_text_mem schemaText⟩
  rw [hmain]
  have hnotice : ∀ c ∈ headerNotice, isLineBreak c = false := by decide
  have hlitA : ∀ x ∈ "# source-schema: ".data, isLineBreak x = false := by decide
  have hlitB : ∀ x ∈ "# schema-sha256: ".data, isLineBreak x = false := by decide
  have hlitC : ∀ x ∈ "# spec-version: ".data, isLineBreak x = false := by decide
  have hhexbreak : ∀ x ∈ hexDigits, isLineBreak x = false := by decide
  have hl2 : ∀ c ∈ "# source-schema: ".data ++ schemaName, isLineBreak c = false := by
    intro c hc
    rcases List.mem_append.mp hc with h | h
    · exact hlitA c h
    · exact hname c h
  have hl3 : ∀ c ∈ "# schema-sha256: ".data ++ sha256_text schemaText,
      isLineBreak c = false := by
    intro c hc
    rcases List.mem_append.mp hc with h | h
    · exact hlitB c h
    · exact hhexbreak c (sha256_text_mem schemaText c h)
  have hl4 : ∀ c ∈ "# spec-version: ".data ++ specVersion, isLineBreak c = false := by
    intro c hc
    rcases List.mem_append.mp hc with h | h
    · exact hlitC c h
    · exact hver c h
  show splitlinesGo [] _ = _
  have hshape : schemaHeader schemaName (sha256_text schemaText) specVersion ++ content =
      headerNotice ++ '\n' ::
      (("# source-schema: ".data ++ schemaName) ++ '\n' ::
      (("# schema-sha256: ".data ++ sha256_text schemaText) ++ '\n' ::
      (("# spec-version: ".data ++ specVersion) ++ '\n' :: content))) := by
    simp [schemaHeader, List.append_assoc]
  rw [hshape]
  rw [splitlinesGo_line headerNotice hnotice []]
  rw [splitlinesGo_line _ hl2 []]
  rw [splitlinesGo_line _ hl3 []]
  rw [splitlinesGo_line _ hl4 []]
  simp [splitlines]

/-- Witness for C1 at concrete inputs. -/
theorem claim_C1_witness :
    add_schema_header "x = 1\n".data "{}".data "ptag.schema.json".data "0.2.5".data =
      schemaHeader "ptag.schema.json".data (sha256_text "{}".data) "0.2.5".data ++
        "x = 1\n".data ∧
    splitlines (add_schema_header "x = 1\n".data "{}".data "ptag.schema.json".data
        "0.2.5".data) =
      headerNotice ::
      ("# source-schema: ".data ++ "ptag.schema.json".data) ::
      ("# schema-sha256: ".data ++ sha256_text "{}".data) ::
      ("# spec-version: ".data ++ "0.2.5".data) :: splitlines "x = 1\n".data ∧
    (sha256_text "{}".data).length = 64 ∧
    (∀ c ∈ sha256_text "{}".data, c ∈ hexDigits) :=
  claim_C1_add_schema_header "x = 1\n".data "{}".data "ptag.schema.json".data "0.2.5".data
    (by decide) (by decide) (by decide)

theorem takeWhile_append_stop (p : Char → Bool) (a : List Char) (x : Char) (b : List Char)
    (ha : ∀ c ∈ a, p c = true) (hx : p x = false) :
    (a ++ x :: b).takeWhile p = a ∧ (a ++ x :: b).dropWhile p = x :: b := by
  induction a with
  | nil => simp [List.takeWhile, List.dropWhile, hx]
  | cons y a' ih =>
    have hy : p y = true := ha y (List.mem_cons_self y a')
    have ih' := ih fun c hc => ha c (List.mem_cons_of_mem y hc)
    simp only [List.cons_append, List.takeWhile_cons, List.dropWhile_cons, hy, if_true]
    exact ⟨by rw [ih'.1], by rw [ih'.2]⟩

theorem takeWhile_append_all (p : Char → Bool) (a b : List Char)
    (ha : ∀ c ∈ a, p c = true) :
    (a ++ b).takeWhile p = a ++ b.takeWhile p ∧ (a ++ b).dropWhile p = b.dropWhile p := by
  induction a with
  | nil => simp
  | cons y a' ih =>
    have hy : p y = true := ha y (List.mem_cons_self y a')
    have ih' := ih fun c hc => ha c (List.mem_cons_of_mem y hc)
    simp only [List.cons_append, List.takeWhile_cons, List.dropWhile_cons, hy, if_true]
    exact ⟨by rw [ih'.1], by rw [ih'.2]⟩

theorem expectDot_eq_some (r t : List Char) : expectDot r = some t ↔ r = '.' :: t := by
  cases r with
  | nil => simp [expectDot]
  | cons c rest =>
    simp only [expectDot]
    by_cases hc : c = '.'
    · subst hc; simp
    · rw [if_neg (by simp [hc])]
      simp [hc]

theorem parseDigits_eq_some (cs r : List Char) :
    parseDigits cs = some r ↔
      (cs.takeWhile Char.isDigit ≠ [] ∧ r = cs.dropWhile Char.isDigit) := by
  unfold parseDigits
  by_cases he : (cs.takeWhile Char.isDigit).isEmpty
  · rw [if_pos he]
    simp only [List.isEmpty_iff] at he
    simp [he]
  · rw [if_neg he]
    simp only [List.isEmpty_iff] at he
    simp [he, eq_comm]

theorem semverLike_iff_semverSpec (cs : List Char) :
    semverLike cs = true ↔ semverSpec cs := by
  constructor
  · intro h
    unfold semverLike at h
    cases hx : ((((parseDigits cs).bind expectDot).bind
        (fun r1 => (parseDigits r1).bind expectDot)).bind
        (fun r2 => parseDigits r2)) with
    | none => rw [hx] at h; exact absurd h (by simp)
    | some r3 =>
      rw [hx] at h
      simp only [Option.map_some', Option.getD_some] at h
      rcases Option.bind_eq_some.mp hx with ⟨r2, hx2, hp3⟩
      rcases Option.bind_eq_some.mp hx2 with ⟨r1, hx1, hd2x⟩
      rcases Option.bind_eq_some.mp hx1 with ⟨q1, hq1, hd1⟩
      rcases Option.bind_eq_some.mp hd2x with ⟨q2, hq2, hd2⟩
      rcases (parseDigits_eq_some cs q1).mp hq1 with ⟨hne1, hq1e⟩
      rcases (parseDigits_eq_some r1 q2).mp hq2 with ⟨hne2, hq2e⟩
      rcases (parseDigits_eq_some r2 r3).mp hp3 with ⟨hne3, hq3e⟩
      have hcs : cs = cs.takeWhile Char.isDigit ++ '.' :: r1 := by
        conv_lhs => rw [← List.takeWhile_append_dropWhile (p := Char.isDigit) (l := cs)]
        rw [← hq1e, (expectDot_eq_some q1 r1).mp hd1]
      have hr1 : r1 = r1.takeWhile Char.isDigit ++ '.' :: r2 := by
        conv_lhs => rw [← List.takeWhile_append_dropWhile (p := Char.isDigit) (l := r1)]
        rw [← hq2e, (expectDot_eq_some q2 r2).mp hd2]
      have hr2 : r2 = r2.takeWhile Char.isDigit ++ r3 := by
        conv_lhs => rw [← List.takeWhile_append_dropWhile (p := Char.isDigit) (l := r2)]
        rw [hq3e]
      refine ⟨cs.takeWhile Char.isDigit, r1.takeWhile Char.isDigit,
        r2.takeWhile Char.isDigit, r3, ?_, hne1, hne2, hne3, ?_, ?_, ?_, ?_⟩
      · conv_lhs => rw [hcs]
        rw [← hr2, ← hr1]
      · exact fun c hc => List.mem_takeWhile_imp hc
      · exact fun c hc => List.mem_takeWhile_imp hc
      · exact fun c hc => List.mem_takeWhile_imp hc
      · exact fun c hc => List.all_eq_true.mp h c hc
  · rintro ⟨d1, d2, d3, s, hcs, hne1, hne2, hne3, hd1, hd2, hd3, hs⟩
    have hdotDigit : Char.isDigit '.' = false := by decide
    have h1 := takeWhile_append_stop Char.isDigit d1 '.' (d2 ++ '.' :: (d3 ++ s)) hd1 hdotDigit
    have h2 := takeWhile_append_stop Char.isDigit d2 '.' (d3 ++ s) hd2 hdotDigit
    have h3 := takeWhile_append_all Char.isDigit d3 s hd3
    have hp1 : parseDigits cs = some ('.' :: (d2 ++ '.' :: (d3 ++ s))) := by
      rw [hcs, parseDigits_eq_some]
      exact ⟨by rw [h1.1]; exact hne1, by rw [h1.2]⟩
    have hp2 : parseDigits (d2 ++ '.' :: (d3 ++ s)) = some ('.' :: (d3 ++ s)) := by
      rw [parseDigits_eq_some]
      exact ⟨by rw [h2.1]; exact hne2, by rw [h2.2]⟩
    have hp3 : parseDigits (d3 ++ s) = some (s.dropWhile Char.isDigit) := by
      rw [parseDigits_eq_some]
      refine ⟨by rw [h3.1]; simp [hne3], by rw [h3.2]⟩
    have hall : (s.dropWhile Char.isDigit).all semverSuffixChar = true := by
      rw [List.all_eq_true]
      intro c hc
      exact hs c ((List.dropWhile_sublist _).mem hc)
    unfold semverLike
    rw [hp1]
    simp [expectDot, hp2, hp3, hall]

/-- C4: tag normalization strips an optional leading 'v' and accepts the
remainder exactly when it matches three dot-separated digit groups followed
by an optional alphanumeric, dot, dash, plus suffix; concretely, "v0.2.5" and "0.2.5"
both normalize to "0.2.5" and are accepted, while "release-1" is rejected. -/
theorem claim_C4_normalize_tag :
    normalize_tag "v0.2.5".data = some ("v0.2.5".data, "0.2.5".data) ∧
    normalize_tag "0.2.5".data = some ("0.2.5".data, "0.2.5".data) ∧
    normalize_tag "release-1".data = none ∧
    (∀ tag raw plain : List Char, normalize_tag tag = some (raw, plain) →
      raw = pstrip tag ∧ plain = stripLeadingV raw ∧ semverSpec plain) ∧
    (∀ tag : List Char, normalize_tag tag = none →
      ¬ semverSpec (stripLeadingV (pstrip tag))) := by
  refine ⟨by decide, by decide, by decide, ?_, ?_⟩
  · intro tag raw plain h
    simp only [normalize_tag] at h
    by_cases hs : semverLike (stripLeadingV (pstrip tag)) = true
    · rw [if_pos hs] at h
      simp only [Option.some.injEq, Prod.mk.injEq] at h
      obtain ⟨h1, h2⟩ := h
      subst h1
      subst h2
      exact ⟨rfl, rfl, (semverLike_iff_semverSpec _).mp hs⟩
    · rw [if_neg hs] at h
      exact absurd h (by simp)
  · intro tag h hspec
    simp only [normalize_tag] at h
    rw [if_pos ((semverLike_iff_semverSpec _).mpr hspec)] at h
    exact absurd h (by simp)

/-- Witness for C4's conditional parts at concrete tags. -/
theorem claim_C4_witness :
    ("v1.2.3".data = pstrip "v1.2.3".data ∧
     "1.2.3".data = stripLeadingV "v1.2.3".data ∧ semverSpec "1.2.3".data) ∧
    ¬ semverSpec (stripLeadingV (pstrip "abc".data)) :=
  ⟨claim_C4_normalize_tag.2.2.2.1 "v1.2.3".data "v1.2.3".data "1.2.3".data (by decide),
   claim_C4_normalize_tag.2.2.2.2 "abc".data (by decide)⟩

theorem mem_insertSorted (a x : List Char) (l : List (List Char)) :
    a ∈ insertSorted x l ↔ a = x ∨ a ∈ l := by
  induction l with
  | nil => simp [insertSorted]
  | cons y ys ih =>
    unfold insertSorted
    by_cases h : listCharLe x y = true
    · rw [if_pos h]; simp
    · rw [if_neg h]
      simp [ih]
      tauto

theorem mem_sortStrings (a : List Char) (l : List (List Char)) :
    a ∈ sortStrings l ↔ a ∈ l := by
  induction l with
  | nil => simp [sortStrings]
  | cons x xs ih => simp [sortStrings, mem_insertSorted, ih]

theorem mem_sortedClasses (a text : List Char) :
    a ∈ sortedClasses text ↔ a ∈ classes_in_file text := by
  rw [sortedClasses, mem_sortStrings, List.mem_dedup]

/-- C7: symbol resolution fails exactly when the record file lacks a PTag
class declaration or the series file lacks a PTagSeries or PTagInterval
class declaration; each failure names the missing symbol and lists the class
names found in the offending file; success returns exactly the three names. -/
theorem claim_C7_resolve_symbols (sText pText : List Char) :
    (∀ e, resolve_symbols sText pText = Except.error e →
      ("PTag".data ∉ classes_in_file pText ∨ "PTagSeries".data ∉ classes_in_file sText ∨
        "PTagInterval".data ∉ classes_in_file sText) ∧
      ((e.expected = "PTag".data ∧ "PTag".data ∉ classes_in_file pText ∧
          ∀ n, n ∈ e.found ↔ n ∈ classes_in_file pText) ∨
        (e.expected = "PTagSeries".data ∧ "PTagSeries".data ∉ classes_in_file sText ∧
          ∀ n, n ∈ e.found ↔ n ∈ classes_in_file sText) ∨
        (e.expected = "PTagInterval".data ∧ "PTagInterval".data ∉ classes_in_file sText ∧
          ∀ n, n ∈ e.found ↔ n ∈ classes_in_file sText))) ∧
    (("PTag".data ∉ classes_in_file pText ∨ "PTagSeries".data ∉ classes_in_file sText ∨
        "PTagInterval".data ∉ classes_in_file sText) →
      ∃ e, resolve_symbols sText pText = Except.error e) ∧
    (∀ x, resolve_symbols sText pText = Except.ok x →
      x = ("PTag".data, "PTagSeries".data, "PTagInterval".data) ∧
      "PTag".data ∈ classes_in_file pText ∧ "PTagSeries".data ∈ classes_in_file sText ∧
      "PTagInterval".data ∈ classes_in_file sText) := by
  by_cases h1 : "PTag".data ∈ classes_in_file pText
  · by_cases h2 : "PTagSeries".data ∈ classes_in_file sText
    · by_cases h3 : "PTagInterval".data ∈ classes_in_file sText
      · refine ⟨?_, ?_, ?_⟩
        · intro e he
          simp only [resolve_symbols, if_pos h1, if_pos h2, if_pos h3] at he
          exact absurd he (by simp)
        · intro hcon
          rcases hcon with h | h | h <;> exact absurd ‹_› h
        · intro x hx
          simp only [resolve_symbols, if_pos h1, if_pos h2, if_pos h3,
            Except.ok.injEq] at hx
          exact ⟨hx.symm, h1, h2, h3⟩
      · refine ⟨?_, fun _ => ?_, ?_⟩
        · intro e he
          simp only [resolve_symbols, if_pos h1, if_pos h2, if_neg h3,
            Except.error.injEq] at he
          subst he
          exact ⟨Or.inr (Or.inr h3),
            Or.inr (Or.inr ⟨rfl, h3, fun n => mem_sortedClasses n sText⟩)⟩
        · exact ⟨⟨"PTagInterval".data, sortedClasses sText⟩,
            by simp only [resolve_symbols, if_pos h1, if_pos h2, if_neg h3]⟩
        · intro x hx
          simp only [resolve_symbols, if_pos h1, if_pos h2, if_neg h3] at hx
          exact absurd hx (by simp)
    · refine ⟨?_, fun _ => ?_, ?_⟩
      · intro e he
        simp only [resolve_symbols, if_pos h1, if_neg h2, Except.error.injEq] at he
        subst he
        exact ⟨Or.inr (Or.inl h2),
          Or.inr (Or.inl ⟨rfl, h2, fun n => mem_sortedClasses n sText⟩)⟩
      · exact ⟨⟨"PTagSeries".data, sortedClasses sText⟩,
          by simp only [resolve_symbols, if_pos h1, if_neg h2]⟩
      · intro x hx
        simp only [resolve_symbols, if_pos h1, if_neg h2] at hx
        exact absurd hx (by simp)
  · refine ⟨?_, fun _ => ?_, ?_⟩
    · intro e he
      simp only [resolve_symbols, if_neg h1, Except.error.injEq] at he
      subst he
      exact ⟨Or.inl h1, Or.inl ⟨rfl, h1, fun n => mem_sortedClasses n pText⟩⟩
    · exact ⟨⟨"PTag".data, sortedClasses pText⟩,
        by simp only [resolve_symbols, if_neg h1]⟩
    · intro x hx
      simp only [resolve_symbols, if_neg h1] at hx
      exact absurd hx (by simp)

/-- Witness for C7: a series file missing PTagInterval makes resolution fail
naming PTagInterval and listing the found classes; complete files resolve to
exactly the three expected names. -/
theorem claim_C7_witness :
    (("PTag".data ∉ classes_in_file "class PTag(B):".data ∨
      "PTagSeries".data ∉ classes_in_file "class PTagSeries(B):".data ∨
      "PTagInterval".data ∉ classes_in_file "class PTagSeries(B):".data) ∧
     ((MissingSymbol.mk "PTagInterval".data ["PTagSeries".data]).expected = "PTag".data ∧
        "PTag".data ∉ classes_in_file "class PTag(B):".data ∧
        (∀ n, n ∈ (MissingSymbol.mk "PTagInterval".data ["PTagSeries".data]).found ↔
          n ∈ classes_in_file "class PTag(B):".data) ∨
      (MissingSymbol.mk "PTagInterval".data ["PTagSeries".data]).expected =
          "PTagSeries".data ∧
        "PTagSeries".data ∉ classes_in_file "class PTagSeries(B):".data ∧
        (∀ n, n ∈ (MissingSymbol.mk "PTagInterval".data ["PTagSeries".data]).found ↔
          n ∈ classes_in_file "class PTagSeries(B):".data) ∨
      (MissingSymbol.mk "PTagInterval".data ["PTagSeries".data]).expected =
          "PTagInterval".data ∧
        "PTagInterval".data ∉ classes_in_file "class PTagSeries(B):".data ∧
        (∀ n, n ∈ (MissingSymbol.mk "PTagInterval".data ["PTagSeries".data]).found ↔
          n ∈ classes_in_file "class PTagSeries(B):".data))) ∧
    (("PTag".data, "PTagSeries".data, "PTagInterval".data) =
        ("PTag".data, "PTagSeries".data, "PTagInterval".data) ∧
      "PTag".data ∈ classes_in_file "class PTag(B):".data ∧
      "PTagSeries".data ∈
        classes_in_file "class PTagSeries(B):\nclass PTagInterval(str):".data ∧
      "PTagInterval".data ∈
        classes_in_file "class PTagSeries(B):\nclass PTagInterval(str):".data) :=
  ⟨(claim_C7_resolve_symbols "class PTagSeries(B):".data "class PTag(B):".data).1
      (MissingSymbol.mk "PTagInterval".data ["PTagSeries".data]) (by rfl),
   (claim_C7_resolve_symbols "class PTagSeries(B):\nclass PTagInterval(str):".data
      "class PTag(B):".data).2.2
      ("PTag".data, "PTagSeries".data, "PTagInterval".data) (by rfl)⟩

/-- C5: the wheel-name pattern `civic[_-]transparency[_-]types-...` cannot
match this distribution's wheel names (`civic_transparency_py_ptag_types-...`),
so the preflight exits with a cannot-parse error instead of comparing the
embedded version with the tag; the comparison behaves as claimed only for the
legacy `civic_transparency_types-...` naming. -/
theorem claim_C5_wheel_name_bug :
    release_version_check
        ["civic_transparency_py_ptag_types-0.2.5-py3-none-any.whl".data] "v0.2.5".data =
      PreflightResult.cannotParse
        "civic_transparency_py_ptag_types-0.2.5-py3-none-any.whl".data ∧
    reSearch wheelRxAt "civic_transparency_py_ptag_types-0.2.5-py3-none-any.whl".data =
      none ∧
    release_version_check
        ["civic_transparency_types-0.2.5-py3-none-any.whl".data] "v0.2.5".data =
      PreflightResult.ok ∧
    release_version_check
        ["civic_transparency_types-0.2.4-py3-none-any.whl".data] "v0.2.5".data =
      PreflightResult.versionMismatch "0.2.4".data "0.2.5".data := by
  refine ⟨by decide, by decide, by decide, by decide⟩

theorem insertSorted_ne_nil (x : List Char) (l : List (List Char)) :
    insertSorted x l ≠ [] := by
  cases l with
  | nil => simp [insertSorted]
  | cons y ys =>
    unfold insertSorted
    by_cases h : listCharLe x y = true
    · rw [if_pos h]; simp
    · rw [if_neg h]; simp

theorem sortStrings_eq_nil (l : List (List Char)) : sortStrings l = [] ↔ l = [] := by
  cases l with
  | nil => simp [sortStrings]
  | cons x xs =>
    simp only [sortStrings]
    constructor
    · intro h; exact absurd h (insertSorted_ne_nil x (sortStrings xs))
    · intro h; exact absurd h (by simp)

theorem mem_missingPaths (p : List Char) (a b : Tree) :
    p ∈ missingPaths a b ↔ p ∈ treePaths a ∧ p ∉ treePaths b := by
  rw [missingPaths, mem_sortStrings, List.mem_filter]
  simp

theorem mem_sharedPaths (p : List Char) (a b : Tree) :
    p ∈ sharedPaths a b ↔ p ∈ treePaths a ∧ p ∈ treePaths b := by
  rw [sharedPaths, mem_sortStrings, List.mem_filter]
  simp

/-- C2 as stated is false: `_compare_dirs` does not exclude `_version.py`;
two trees that differ only in `_version.py` yield a non-empty report. -/
theorem claim_C2_counterexample :
    compare_dirs [("_version.py".data, [49])] [] ≠ [] := by decide

/-- C2 (amended): `_compare_dirs` excludes nothing (in particular it also
compares `_version.py`); it compares files by SHA-256 content hash per
relative path, returns the empty list iff the two trees have the same set of
relative paths and hash-equal content at every shared path, and its entries
name every added, removed and modified path. -/
theorem claim_C2_compare_dirs (a b : Tree) :
    (compare_dirs a b = [] ↔
      ((∀ p, p ∈ treePaths a ↔ p ∈ treePaths b) ∧
        (∀ p, p ∈ treePaths a → p ∈ treePaths b →
          sha256Hex (lookupTree a p) = sha256Hex (lookupTree b p)))) ∧
    (∀ p, p ∈ missingPaths a b ↔ p ∈ treePaths a ∧ p ∉ treePaths b) ∧
    (∀ p, p ∈ missingPaths b a ↔ p ∈ treePaths b ∧ p ∉ treePaths a) ∧
    (∀ p, ("Content differs: ".data ++ p) ∈ compare_dirs a b ↔
      (p ∈ treePaths a ∧ p ∈ treePaths b ∧
        sha256Hex (lookupTree a p) ≠ sha256Hex (lookupTree b p))) := by
  constructor
  · unfold compare_dirs
    constructor
    · intro h
      rcases List.append_eq_nil.mp h with ⟨h12, h3⟩
      rcases List.append_eq_nil.mp h12 with ⟨h1, h2⟩
      have hm1 : missingPaths a b = [] := by
        by_contra hne
        rw [if_neg (by simpa [List.isEmpty_iff] using hne)] at h1
        exact absurd h1 (by simp)
      have hm2 : missingPaths b a = [] := by
        by_contra hne
        rw [if_neg (by simpa [List.isEmpty_iff] using hne)] at h2
        exact absurd h2 (by simp)
      have hsh := List.filterMap_eq_nil_iff.mp h3
      constructor
      · intro p
        constructor
        · intro hpa
          by_contra hpb
          have : p ∈ missingPaths a b := (mem_missingPaths p a b).mpr ⟨hpa, hpb⟩
          rw [hm1] at this
          exact absurd this (by simp)
        · intro hpb
          by_contra hpa
          have : p ∈ missingPaths b a := (mem_missingPaths p b a).mpr ⟨hpb, hpa⟩
          rw [hm2] at this
          exact absurd this (by simp)
      · intro p hpa hpb
        have hp : p ∈ sharedPaths a b := (mem_sharedPaths p a b).mpr ⟨hpa, hpb⟩
        have := hsh p hp
        by_contra hne
        rw [if_pos hne] at this
        exact absurd this (by simp)
    · rintro ⟨hpaths, hhash⟩
      have hm1 : missingPaths a b = [] := by
        by_contra hne
        rcases List.exists_mem_of_ne_nil _ hne with ⟨p, hp⟩
        rcases (mem_missingPaths p a b).mp hp with ⟨hpa, hpb⟩
        exact hpb ((hpaths p).mp hpa)
      have hm2 : missingPaths b a = [] := by
        by_contra hne
        rcases List.exists_mem_of_ne_nil _ hne with ⟨p, hp⟩
        rcases (mem_missingPaths p b a).mp hp with ⟨hpb, hpa⟩
        exact hpa ((hpaths p).mpr hpb)
      rw [hm1, hm2]
      simp only [List.isEmpty_nil, if_true, List.nil_append]
      rw [List.filterMap_eq_nil_iff]
      intro p hp
      rcases (mem_sharedPaths p a b).mp hp with ⟨hpa, hpb⟩
      rw [if_neg (by simpa using hhash p hpa hpb)]
  · refine ⟨fun p => mem_missingPaths p a b, fun p => mem_missingPaths p b a, ?_⟩
    intro p
    constructor
    · intro hmem
      unfold compare_dirs at hmem
      rcases List.mem_append.mp hmem with hmem | hmem
      · rcases List.mem_append.mp hmem with hmem | hmem
        · exfalso
          by_cases hc : (missingPaths a b).isEmpty
          · rw [if_pos hc] at hmem; exact absurd hmem (by simp)
          · rw [if_neg hc] at hmem
            simp only [List.mem_singleton] at hmem
            have := congrArg List.head? hmem
            simp [List.head?_append] at this
        · exfalso
          by_cases hc : (missingPaths b a).isEmpty
          · rw [if_pos hc] at hmem; exact absurd hmem (by simp)
          · rw [if_neg hc] at hmem
            simp only [List.mem_singleton] at hmem
            have := congrArg List.head? hmem
            simp [List.head?_append] at this
      · rcases List.mem_filterMap.mp hmem with ⟨q, hq, hqe⟩
        by_cases hne : sha256Hex (lookupTree a q) ≠ sha256Hex (lookupTree b q)
        · rw [if_pos hne] at hqe
          have hpq : q = p := by
            have := Option.some.inj hqe
            exact List.append_cancel_left this
          subst hpq
          rcases (mem_sharedPaths q a b).mp hq with ⟨hqa, hqb⟩
          exact ⟨hqa, hqb, hne⟩
        · rw [if_neg hne] at hqe
          exact absurd hqe (by simp)
    · rintro ⟨hpa, hpb, hne⟩
      unfold compare_dirs
      refine List.mem_append.mpr (Or.inr ?_)
      refine List.mem_filterMap.mpr ⟨p, (mem_sharedPaths p a b).mpr ⟨hpa, hpb⟩, ?_⟩
      rw [if_pos hne]

/-- C9: a mapping with an explicitly empty points sequence validates, and a
mapping omitting points entirely validates with the default empty sequence. -/
theorem claim_C9_points_default (t g i : List Char) :
    validateSeries ⟨some t, some g, some i, some []⟩ = some ⟨t, g, i, []⟩ ∧
    validateSeries ⟨some t, some g, some i, none⟩ = some ⟨t, g, i, []⟩ :=
  ⟨rfl, rfl⟩

/-- C3: when only the series schema's hash disagrees with its stamped header
value, the check reports exactly one mismatch (for the series schema), none
for the record schema, and exits 1 — every target is checked despite the
failure; and the check exits 0 only if every tracked file exists with a
well-formed header naming its schema and a stamped hash equal to the SHA-256
of the installed schema text. -/
theorem claim_C3_hash_check (env : HashCheckEnv) (sC pC sSha pSha : List Char) :
    (env.seriesFile = some sC → env.ptagFile = some pC →
      stampedNameOf sC = some "series.schema.json".data →
      stampedShaOf sC = some sSha →
      stampedNameOf pC = some "provenance_tag.schema.json".data →
      stampedShaOf pC = some pSha →
      sha256_text env.seriesSchemaText ≠ sSha →
      sha256_text env.ptagSchemaText = pSha →
      ((check_schema_hash_main env).1.filter isMismatch =
        [HashCheckMsg.hashMismatch "series.schema.json".data sSha
          (sha256_text env.seriesSchemaText)] ∧
      (check_schema_hash_main env).2 = 1)) ∧
    ((check_schema_hash_main env).2 = 0 →
      ∀ t ∈ hashCheckTargets env, ∃ content,
        t.file = some content ∧
        stampedNameOf content = some t.schemaName ∧
        ∃ sha, stampedShaOf content = some sha ∧ sha256_text t.schemaText = sha) := by
  constructor
  · intro hsf hpf hsn hss hpn hps hsm hpm
    have hser : checkTarget ⟨"series.schema.json".data, env.seriesFile, env.seriesSchemaText⟩ =
        [.hashMismatch "series.schema.json".data sSha (sha256_text env.seriesSchemaText)] := by
      simp only [checkTarget, hsf, hss, hsn, if_true, eq_self_iff_true]
      rw [if_pos hsm]
    have hpt : checkTarget ⟨"provenance_tag.schema.json".data, env.ptagFile,
        env.ptagSchemaText⟩ = [] := by
      simp only [checkTarget, hpf, hps, hpn, if_true, eq_self_iff_true]
      rw [if_neg (fun h => h hpm)]
    constructor
    · simp only [check_schema_hash_main, hashCheckTargets, List.map_cons, List.map_nil,
        hser, hpt]
      cases env.seriesEmptyOk <;> simp [isMismatch]
    · simp only [check_schema_hash_main, hashCheckTargets, List.map_cons, List.map_nil,
        hser, hpt]
      cases env.seriesEmptyOk <;> simp
  · intro hz t ht
    have hmsgs : (((hashCheckTargets env).map checkTarget).flatten ++
        (if env.seriesEmptyOk then [] else [.seriesValidationFail])) = [] := by
      by_contra hne
      simp only [check_schema_hash_main] at hz
      rw [if_neg (by simpa [List.isEmpty_iff] using hne)] at hz
      exact absurd hz (by simp)
    rcases List.append_eq_nil.mp hmsgs with ⟨hflat, _⟩
    have hall := List.flatten_eq_nil_iff.mp hflat
    have hct : checkTarget t = [] := hall (checkTarget t) (List.mem_map_of_mem checkTarget ht)
    cases hfile : t.file with
    | none =>
      simp only [checkTarget, hfile] at hct
      exact absurd hct (by simp)
    | some content =>
      refine ⟨content, rfl, ?_⟩
      simp only [checkTarget, hfile] at hct
      cases hsha : stampedShaOf content with
      | none =>
        simp only [hsha] at hct
        exact absurd hct (by simp)
      | some sha =>
        simp only [hsha] at hct
        by_cases hname : stampedNameOf content = some t.schemaName
        · rw [if_pos hname] at hct
          refine ⟨hname, sha, rfl, ?_⟩
          by_cases heq : sha256_text t.schemaText = sha
          · exact heq
          · rw [if_pos heq] at hct
            exact absurd hct (by simp)
        · rw [if_neg hname] at hct
          exact absurd hct (by simp)

/-- Witness for C3: the stale-series environment yields exactly one mismatch
report (for the series schema) and exit status 1; the current environment
exits 0 and indeed has every target present, well-stamped and hash-matching. -/
theorem claim_C3_witness :
    ((check_schema_hash_main c3EnvBad).1.filter isMismatch =
      [HashCheckMsg.hashMismatch "series.schema.json".data "deadbeef".data
        (sha256_text "{}".data)] ∧
     (check_schema_hash_main c3EnvBad).2 = 1) ∧
    (∀ t ∈ hashCheckTargets c3EnvGood, ∃ content,
      t.file = some content ∧
      stampedNameOf content = some t.schemaName ∧
      ∃ sha, stampedShaOf content = some sha ∧ sha256_text t.schemaText = sha) :=
  ⟨(claim_C3_hash_check c3EnvBad c3SeriesBad c3PtagGood "deadbeef".data
      (sha256_text "{}".data)).1 rfl rfl (by decide) (by decide) (by decide) (by decide)
      (by decide) rfl,
   (claim_C3_hash_check c3EnvGood [] [] [] []).2 (by decide)⟩


/-! ## C10: locality and charset of the header parser -/

theorem headerValAt_mem (key cs v : List Char) (h : headerValAt key cs = some v) :
    ∀ c ∈ v, headerValChar c = true := by
  match cs with
  | [] => simp [headerValAt] at h
  | c :: rest =>
    simp only [headerValAt] at h
    by_cases hc : (c == '#') = true
    · rw [if_pos hc] at h
      cases hs : stripPrefixChars key (rest.dropWhile isPyRegexSpace) with
      | none => rw [hs] at h; exact absurd h (by simp)
      | some r2 =>
        rw [hs] at h
        match r2 with
        | [] => exact absurd h (by simp)
        | x :: r3 =>
          simp only at h
          by_cases hx : (x == ':') = true
          · rw [if_pos hx] at h
            by_cases he : ((r3.dropWhile isPyRegexSpace).takeWhile headerValChar).isEmpty
            · rw [if_pos he] at h; exact absurd h (by simp)
            · rw [if_neg he] at h
              by_cases hw : wsToEol ((r3.dropWhile isPyRegexSpace).dropWhile headerValChar)
                  = true
              · rw [if_pos hw] at h
                have hv := Option.some.inj h
                subst hv
                exact fun c hc => List.mem_takeWhile_imp hc
              · rw [if_neg hw] at h; exact absurd h (by simp)
          · rw [if_neg hx] at h
            exact absurd h (by simp)
    · rw [if_neg hc] at h
      exact absurd h (by simp)

theorem searchLineStartsAux_mem (key cs v : List Char)
    (h : searchLineStartsAux (headerValAt key) cs = some v) :
    ∀ c ∈ v, headerValChar c = true := by
  induction cs with
  | nil => simp [searchLineStartsAux] at h
  | cons c rest ih =>
    simp only [searchLineStartsAux] at h
    by_cases hc : (c == '\n') = true
    · rw [if_pos hc] at h
      cases hf : headerValAt key rest with
      | some w =>
        rw [hf] at h
        exact Option.some.inj h ▸ headerValAt_mem key rest w hf
      | none =>
        rw [hf] at h
        exact ih h
    · rw [if_neg hc] at h
      exact ih h

theorem header_val_mem (text key v : List Char) (h : header_val text key = some v) :
    ∀ c ∈ v, headerValChar c = true := by
  unfold header_val at h
  cases hf : headerValAt key text with
  | some w =>
    rw [hf] at h
    exact Option.some.inj h ▸ headerValAt_mem key text w hf
  | none =>
    rw [hf] at h
    exact searchLineStartsAux_mem key text v h

theorem headerValAt_none_of_head (key cs : List Char) (h : cs.head? ≠ some '#') :
    headerValAt key cs = none := by
  match cs with
  | [] => rfl
  | c :: rest =>
    simp only [headerValAt]
    rw [if_neg (by simpa using h)]

theorem searchAux_append_no_lf (f : List Char → Option (List Char)) (a cs : List Char)
    (ha : '\n' ∉ a) :
    searchLineStartsAux f (a ++ cs) = searchLineStartsAux f cs := by
  induction a with
  | nil => rfl
  | cons c a' ih =>
    have hc : c ≠ '\n' := fun h => ha (h ▸ List.mem_cons_self c a')
    rw [List.cons_append]
    conv_lhs => rw [searchLineStartsAux]
    rw [if_neg (by simpa using hc)]
    exact ih fun h => ha (List.mem_cons_of_mem c h)

theorem joinLF_cons (l : List Char) (ls : List (List Char)) :
    joinLF (l :: ls) = if ls.isEmpty then l else l ++ '\n' :: joinLF ls := by
  cases ls with
  | nil => simp [joinLF, List.intersperse]
  | cons m ls' => simp [joinLF, List.intersperse]

theorem head?_joinLF_ne_hash (ls : List (List Char))
    (hh : ∀ l ∈ ls, l.head? ≠ some '#') : (joinLF ls).head? ≠ some '#' := by
  cases ls with
  | nil => simp [joinLF]
  | cons l ls' =>
    rw [joinLF_cons]
    cases ls' with
    | nil =>
      simp only [List.isEmpty_nil, if_true]
      exact hh l (List.mem_cons_self l [])
    | cons m ls'' =>
      simp only [List.isEmpty_cons, Bool.false_eq_true, if_false]
      cases l with
      | nil => simp
      | cons c l' =>
        simpa using hh (c :: l') (List.mem_cons_self _ _)

theorem header_val_none_of_window (ls : List (List Char)) (k : List Char)
    (hln : ∀ l ∈ ls, '\n' ∉ l) (hh : ∀ l ∈ ls, l.head? ≠ some '#') :
    header_val (joinLF ls) k = none := by
  induction ls with
  | nil => rfl
  | cons l ls' ih =>
    have hl0 : l.head? ≠ some '#' := hh l (List.mem_cons_self l ls')
    have hln0 : '\n' ∉ l := hln l (List.mem_cons_self l ls')
    have hlnr : ∀ m ∈ ls', '\n' ∉ m := fun m hm => hln m (List.mem_cons_of_mem l hm)
    have hhr : ∀ m ∈ ls', m.head? ≠ some '#' := fun m hm => hh m (List.mem_cons_of_mem l hm)
    have ihr := ih hlnr hhr
    have ih1 : headerValAt k (joinLF ls') = none := by
      unfold header_val at ihr
      cases hf : headerValAt k (joinLF ls') with
      | some w => rw [hf] at ihr; exact absurd ihr (by simp)
      | none => rfl
    have ih2 : searchLineStartsAux (headerValAt k) (joinLF ls') = none := by
      unfold header_val at ihr
      rw [ih1] at ihr
      exact ihr
    rw [joinLF_cons]
    cases ls' with
    | nil =>
      simp only [List.isEmpty_nil, if_true]
      unfold header_val
      rw [headerValAt_none_of_head k l hl0]
      have := searchAux_append_no_lf (headerValAt k) l [] hln0
      rw [List.append_nil] at this
      rw [this]
      rfl
    | cons m ls'' =>
      simp only [List.isEmpty_cons, Bool.false_eq_true, if_false]
      unfold header_val
      have hhead : (l ++ '\n' :: joinLF (m :: ls'')).head? ≠ some '#' := by
        cases l with
        | nil => simp
        | cons c l' => simpa using hl0
      rw [headerValAt_none_of_head k _ hhead]
      rw [searchAux_append_no_lf (headerValAt k) l _ hln0]
      conv_lhs => rw [searchLineStartsAux]
      rw [if_pos (by simp)]
      rw [headerValAt_none_of_head k _ (head?_joinLF_ne_hash _ hhr)]
      exact ih2

theorem splitlinesGo_no_break : ∀ (cur cs : List Char),
    (∀ c ∈ cur, isLineBreak c = false) →
    ∀ l ∈ splitlinesGo cur cs, ∀ c ∈ l, isLineBreak c = false := by
  intro cur cs
  induction cur, cs using splitlinesGo.induct with
  | case1 cur hemp =>
    intro hcur l hl c hc
    simp only [splitlinesGo, if_pos hemp] at hl
    exact absurd hl (by simp)
  | case2 cur hemp =>
    intro hcur l hl c hc
    simp only [splitlinesGo, if_neg hemp, List.mem_singleton] at hl
    subst hl
    exact hcur c (List.mem_reverse.mp hc)
  | case3 cur c0 hb =>
    intro hcur l hl c hc
    simp only [splitlinesGo, if_pos hb, List.mem_singleton] at hl
    subst hl
    exact hcur c (List.mem_reverse.mp hc)
  | case4 cur c0 hb =>
    intro hcur l hl c hc
    simp only [splitlinesGo, if_neg hb, List.mem_singleton] at hl
    subst hl
    rcases List.mem_cons.mp (List.mem_reverse.mp hc) with h | h
    · subst h; simpa using hb
    · exact hcur c h
  | case5 cur c0 d rest hcd ih =>
    intro hcur l hl c hc
    simp only [splitlinesGo, if_pos hcd, List.mem_cons] at hl
    rcases hl with h | h
    · subst h; exact hcur c (List.mem_reverse.mp hc)
    · exact ih (by simp) l h c hc
  | case6 cur c0 d rest hcd hb ih =>
    intro hcur l hl c hc
    simp only [splitlinesGo, if_neg hcd, if_pos hb, List.mem_cons] at hl
    rcases hl with h | h
    · subst h; exact hcur c (List.mem_reverse.mp hc)
    · exact ih (by simp) l h c hc
  | case7 cur c0 d rest hcd hb ih =>
    intro hcur l hl c hc
    simp only [splitlinesGo, if_neg hcd, if_neg hb] at hl
    refine ih ?_ l hl c hc
    intro x hx
    rcases List.mem_cons.mp hx with h | h
    · subst h; simpa using hb
    · exact hcur x h

theorem splitlines_no_break (cs l : List Char) (hl : l ∈ splitlines cs) :
    ∀ c ∈ l, isLineBreak c = false :=
  splitlinesGo_no_break [] cs (by simp) l hl


theorem isLineBreak_of_headerValChar (c : Char) (h : headerValChar c = true) :
    isLineBreak c = false := by
  cases hb : isLineBreak c with
  | false => rfl
  | true =>
    exfalso
    simp only [isLineBreak, Bool.or_eq_true, beq_iff_eq] at hb
    rcases hb with ((((((((h1 | h1) | h1) | h1) | h1) | h1) | h1) | h1) | h1) | h1 <;>
      (subst h1; exact absurd h (by decide))

theorem isPyRegexSpace_of_headerValChar (c : Char) (h : headerValChar c = true) :
    isPyRegexSpace c = false := by
  cases hb : isPyRegexSpace c with
  | false => rfl
  | true =>
    exfalso
    simp only [isPyRegexSpace, Bool.or_eq_true, beq_iff_eq] at hb
    rcases hb with ((((h1 | h1) | h1) | h1) | h1) | h1 <;>
      (subst h1; exact absurd h (by decide))

theorem dropWhile_headerValChar_plus (v : List Char) (h1 : '+' ∈ v)
    (h2 : ∀ c ∈ v, headerValChar c = true ∨ c = '+') :
    ∃ w, v.dropWhile headerValChar = '+' :: w := by
  induction v with
  | nil => exact absurd h1 (by simp)
  | cons x v' ih =>
    by_cases hx : headerValChar x = true
    · have hxne : x ≠ '+' := by
        intro he
        subst he
        exact absurd hx (by decide)
      have h1' : '+' ∈ v' := by
        rcases List.mem_cons.mp h1 with h | h
        · exact absurd h.symm hxne
        · exact h
      rcases ih h1' (fun c hc => h2 c (List.mem_cons_of_mem x hc)) with ⟨w, hw⟩
      refine ⟨w, ?_⟩
      rw [List.dropWhile_cons, if_pos hx]
      exact hw
    · have hxp : x = '+' := (h2 x (List.mem_cons_self x v')).resolve_left hx
      subst hxp
      exact ⟨v', by rw [List.dropWhile_cons, if_neg hx]⟩

/-- A schema-sha256 header line whose value contains a `+` never matches the
header pattern: the `+` is outside the `[0-9a-zA-Z._-]` value class. -/
theorem headerValAt_plus (v : List Char) (h1 : '+' ∈ v)
    (h2 : ∀ c ∈ v, headerValChar c = true ∨ c = '+') :
    headerValAt "schema-sha256".data ("# schema-sha256: ".data ++ v) = none := by
  have hsplit : "# schema-sha256: ".data ++ v = '#' :: (" schema-sha256: ".data ++ v) := rfl
  rw [hsplit]
  simp only [headerValAt]
  rw [if_pos (by decide)]
  have hdrop : (" schema-sha256: ".data ++ v).dropWhile isPyRegexSpace =
      "schema-sha256: ".data ++ v := rfl
  rw [hdrop]
  have hstrip : stripPrefixChars "schema-sha256".data ("schema-sha256: ".data ++ v) =
      some (':' :: (' ' :: v)) := rfl
  rw [hstrip]
  simp only
  rw [if_pos (by decide)]
  have hvne : v ≠ [] := fun h => by simp [h] at h1
  have hdropv : (' ' :: v).dropWhile isPyRegexSpace = v := by
    rw [List.dropWhile_cons, if_pos (by decide)]
    cases v with
    | nil => rfl
    | cons x v' =>
      rw [List.dropWhile_cons]
      rw [if_neg ?_]
      rcases h2 x (List.mem_cons_self x v') with h | h
      · simp [isPyRegexSpace_of_headerValChar x h]
      · subst h; decide
  rw [hdropv]
  by_cases hemp : (v.takeWhile headerValChar).isEmpty
  · rw [if_pos hemp]
  · rw [if_neg hemp]
    rcases dropWhile_headerValChar_plus v h1 h2 with ⟨w, hw⟩
    have hwe : ¬(wsToEol ('+' :: w) = true) := by
      simp only [wsToEol]
      rw [if_neg (by decide), if_neg (by decide)]
      simp
    rw [hw, if_neg hwe]

/-- A single line without line-break characters splits into itself. -/
theorem splitlinesGo_single (l : List Char) (hne : l ≠ [])
    (hnb : ∀ c ∈ l, isLineBreak c = false) :
    ∀ cur, splitlinesGo cur l = [cur.reverse ++ l] := by
  induction l with
  | nil => exact absurd rfl hne
  | cons x l' ih =>
    intro cur
    have hx : isLineBreak x = false := hnb x (List.mem_cons_self x l')
    have hnb' : ∀ c ∈ l', isLineBreak c = false :=
      fun c hc => hnb c (List.mem_cons_of_mem x hc)
    cases l' with
    | nil =>
      simp only [splitlinesGo]
      rw [if_neg (by simp [hx])]
      simp
    | cons y l'' =>
      simp only [splitlinesGo]
      have hxr : (x == '\x0d') = false := isLineBreak_cr_false x hx
      rw [if_neg (by simp [hxr]), if_neg (by simp [hx])]
      rw [ih (by simp) hnb' (x :: cur)]
      simp

/-- The series target reports a missing/bad header and the check fails when
the stamped hash cannot be parsed from the committed series file. -/
theorem badHeader_of_series_sha_none (env : HashCheckEnv) (sC : List Char)
    (hsf : env.seriesFile = some sC) (hnone : stampedShaOf sC = none) :
    HashCheckMsg.badHeader "series.schema.json".data ∈ (check_schema_hash_main env).1 ∧
    (check_schema_hash_main env).2 = 1 := by
  have hser : checkTarget ⟨"series.schema.json".data, env.seriesFile, env.seriesSchemaText⟩ =
      [.badHeader "series.schema.json".data] := by
    simp only [checkTarget, hsf, hnone]
  constructor
  · simp only [check_schema_hash_main, hashCheckTargets, List.map_cons, List.map_nil, hser,
      List.flatten_cons, List.flatten_nil]
    simp
  · simp only [check_schema_hash_main, hashCheckTargets, List.map_cons, List.map_nil, hser,
      List.flatten_cons, List.flatten_nil]
    simp

/-- C10: the hash check accepts header values drawn only from
`[0-9a-zA-Z._-]`; a committed series file none of whose first twenty lines
starts with `#` (its header lying entirely after line 20) is reported as
missing its header with a failing exit status; and so is a series file whose
schema-sha256 value contains a `+`, even though it is otherwise well-formed. -/
theorem claim_C10_header_parsing (env : HashCheckEnv) (sC v : List Char) :
    (∀ text key w, header_val text key = some w → ∀ c ∈ w, headerValChar c = true) ∧
    (env.seriesFile = some sC →
      (∀ l ∈ (splitlines sC).take 20, l.head? ≠ some '#') →
      HashCheckMsg.badHeader "series.schema.json".data ∈ (check_schema_hash_main env).1 ∧
      (check_schema_hash_main env).2 = 1) ∧
    (env.seriesFile = some (c10PlusContent v) → '+' ∈ v →
      (∀ c ∈ v, headerValChar c = true ∨ c = '+') →
      HashCheckMsg.badHeader "series.schema.json".data ∈ (check_schema_hash_main env).1 ∧
      (check_schema_hash_main env).2 = 1) := by
  refine ⟨header_val_mem, ?_, ?_⟩
  · intro hsf hh
    have hln : ∀ l ∈ (splitlines sC).take 20, '\n' ∉ l := by
      intro l hl hmem
      have := splitlines_no_break sC l (List.mem_of_mem_take hl) '\n' hmem
      exact absurd this (by decide)
    exact badHeader_of_series_sha_none env sC hsf
      (header_val_none_of_window _ _ hln hh)
  · intro hsf h1 h2
    have hvnb : ∀ c ∈ "# schema-sha256: ".data ++ v, isLineBreak c = false := by
      intro c hc
      rcases List.mem_append.mp hc with h | h
      · revert h
        have : ∀ c ∈ "# schema-sha256: ".data, isLineBreak c = false := by decide
        exact this c
      · rcases h2 c h with hcv | hcv
        · exact isLineBreak_of_headerValChar c hcv
        · subst hcv; decide
    have hvne : ("# schema-sha256: ".data ++ v : List Char) ≠ [] := by simp
    have hcontent : c10PlusContent v =
        "# source-schema: series.schema.json".data ++
          '\n' :: ("# schema-sha256: ".data ++ v) := by
      simp [c10PlusContent, joinLF, List.intersperse]
    have hsplitl : splitlines (c10PlusContent v) =
        ["# source-schema: series.schema.json".data, "# schema-sha256: ".data ++ v] := by
      rw [hcontent]
      show splitlinesGo [] _ = _
      rw [splitlinesGo_line _ (by decide) [] _]
      rw [splitlinesGo_single _ hvne hvnb []]
      simp
    have hwindow : headerWindow (c10PlusContent v) = c10PlusContent v := by
      rw [headerWindow, hsplitl]
      rfl
    have hnone : stampedShaOf (c10PlusContent v) = none := by
      rw [stampedShaOf, hwindow, hcontent]
      unfold header_val
      have h0 : headerValAt "schema-sha256".data
          ("# source-schema: series.schema.json".data ++
            '\n' :: ("# schema-sha256: ".data ++ v)) = none := by
        have hsp : ("# source-schema: series.schema.json".data ++
            '\n' :: ("# schema-sha256: ".data ++ v) : List Char) =
            '#' :: (" source-schema: series.schema.json".data ++
              '\n' :: ("# schema-sha256: ".data ++ v)) := rfl
        rw [hsp]
        simp only [headerValAt]
        rw [if_pos (by decide)]
        have : stripPrefixChars "schema-sha256".data
            ((" source-schema: series.schema.json".data ++
              '\n' :: ("# schema-sha256: ".data ++ v)).dropWhile isPyRegexSpace) =
            none := rfl
        rw [this]
      rw [h0]
      rw [searchAux_append_no_lf _ _ _ (by decide)]
      conv_lhs => rw [searchLineStartsAux]
      rw [if_pos (by decide)]
      rw [headerValAt_plus v h1 h2]
      have hnolf : '\n' ∉ ("# schema-sha256: ".data ++ v : List Char) := by
        intro hmem
        have := hvnb '\n' hmem
        exact absurd this (by decide)
      have := searchAux_append_no_lf (headerValAt "schema-sha256".data)
        ("# schema-sha256: ".data ++ v) [] hnolf
      rw [List.append_nil] at this
      rw [this]
      rfl
    exact badHeader_of_series_sha_none env _ hsf hnone

/-- Witness for C10 at concrete inputs: a concrete header value is all in the
charset; a file whose header lines lie after line 20 (even with a stamped
hash that matches the installed schema) and a file whose stamped value
contains `+` are both reported as header-missing with exit status 1. -/
theorem claim_C10_witness :
    (∀ c ∈ ("deadbeef".data : List Char), headerValChar c = true) ∧
    (HashCheckMsg.badHeader "series.schema.json".data ∈
        (check_schema_hash_main c10EnvLate).1 ∧
      (check_schema_hash_main c10EnvLate).2 = 1) ∧
    (HashCheckMsg.badHeader "series.schema.json".data ∈
        (check_schema_hash_main c10EnvPlus).1 ∧
      (check_schema_hash_main c10EnvPlus).2 = 1) :=
  ⟨(claim_C10_header_parsing c10EnvLate c10LateHeader []).1
      "# schema-sha256: deadbeef".data "schema-sha256".data "deadbeef".data (by decide),
   (claim_C10_header_parsing c10EnvLate c10LateHeader []).2.1 rfl (by decide),
   (claim_C10_header_parsing c10EnvPlus [] "abc+def".data).2.2 rfl (by decide) (by decide)⟩

/-- C6's consequence clause is false: on a points declaration followed by
trailing text, the first run patches (returns true) and the second run
patches again (returns true, not false). -/
theorem claim_C6_counterexample :
    (fix_points_field "points: list[PTagSeriesPoint] = Field(x) y".data).1 = true ∧
    (fix_points_field
      (fix_points_field "points: list[PTagSeriesPoint] = Field(x) y".data).2).1 = true := by
  refine ⟨by decide, by decide⟩

theorem expectChar_eq_some (ch : Char) (cs r : List Char) :
    expectChar ch cs = some r ↔ cs = ch :: r := by
  cases cs with
  | nil => simp [expectChar]
  | cons c rest =>
    simp only [expectChar]
    by_cases hc : c = ch
    · subst hc; simp
    · rw [if_neg (by simp [hc])]
      simp [hc]

theorem stripPrefixChars_decomp (p cs r : List Char) (h : stripPrefixChars p cs = some r) :
    cs = p ++ r := by
  induction p generalizing cs with
  | nil =>
    simp only [stripPrefixChars] at h
    simpa using Option.some.inj h
  | cons x p' ih =>
    match cs with
    | [] => simp [stripPrefixChars] at h
    | c :: cs' =>
      simp only [stripPrefixChars] at h
      by_cases hc : (c == x) = true
      · rw [if_pos hc] at h
        have hcx : c = x := by simpa using hc
        subst hcx
        rw [List.cons_append]
        exact congrArg (c :: ·) (ih cs' h)
      · rw [if_neg hc] at h
        exact absurd h (by simp)

theorem exists_append_of (a : List Char) {b r : List Char} (h : ∃ m, b = m ++ r) :
    ∃ m, a ++ b = m ++ r := by
  rcases h with ⟨m, hm⟩
  exact ⟨a ++ m, by rw [hm, List.append_assoc]⟩

theorem exists_append_skipWS {b r : List Char} (h : ∃ m, skipWS b = m ++ r) :
    ∃ m, b = m ++ r := by
  have hb : b = b.takeWhile isPyRegexSpace ++ skipWS b :=
    (List.takeWhile_append_dropWhile _ _).symm
  rw [hb]
  exact exists_append_of _ h

theorem pattern2At_decomp (cs indent r : List Char)
    (h : pattern2At cs = some (indent, r)) :
    (∃ m, cs = m ++ r) ∧ (∀ c ∈ indent, isIndentChar c = true) := by
  unfold pattern2At at h
  rcases Option.bind_eq_some.mp h with ⟨r1, h1, h⟩
  rcases Option.bind_eq_some.mp h with ⟨r2, h2, h⟩
  rcases Option.bind_eq_some.mp h with ⟨r3, h3, h⟩
  rcases Option.bind_eq_some.mp h with ⟨r4, h4, h⟩
  rcases Option.map_eq_some'.mp h with ⟨r5, h5, hpair⟩
  have hind : indent = cs.takeWhile isIndentChar := (Prod.mk.injEq .. ▸ hpair).1.symm
  have hr : r = r5 := (Prod.mk.injEq .. ▸ hpair).2.symm
  rw [hr]
  constructor
  · -- chain the decompositions inside out
    have e5 : r4.dropWhile (fun c => !(c == ')')) = ')' :: r5 :=
      (expectChar_eq_some ')' _ r5).mp h5
    have d5 : ∃ m, r4 = m ++ r5 := by
      have hTD : r4 =
          r4.takeWhile (fun c => !(c == ')')) ++ r4.dropWhile (fun c => !(c == ')')) :=
        (List.takeWhile_append_dropWhile _ _).symm
      rw [hTD, e5]
      exact exists_append_of _ ⟨[')'], rfl⟩
    have d4 : ∃ m, skipWS r3 = m ++ r5 := by
      rw [stripPrefixChars_decomp _ _ _ h4]
      exact exists_append_of _ d5
    have d3 : ∃ m, skipWS r2 = m ++ r5 := by
      rw [(expectChar_eq_some '=' _ r3).mp h3]
      exact exists_append_of ['='] (exists_append_skipWS d4)
    have d2 : ∃ m, skipWS r1 = m ++ r5 := by
      rw [stripPrefixChars_decomp _ _ _ h2]
      exact exists_append_of _ (exists_append_skipWS d3)
    have d1 : ∃ m, cs.dropWhile isIndentChar = m ++ r5 := by
      rw [stripPrefixChars_decomp _ _ _ h1]
      exact exists_append_of _ (exists_append_skipWS d2)
    have hTD2 : cs = cs.takeWhile isIndentChar ++ cs.dropWhile isIndentChar :=
      (List.takeWhile_append_dropWhile _ _).symm
    rw [hTD2]
    exact exists_append_of _ d1
  · intro c hc
    rw [hind] at hc
    exact List.mem_takeWhile_imp hc

theorem subPointsGo_shape (cs out : List Char) (h : subPointsGo cs = some out) :
    ∃ pre mid rest indent,
      cs = pre ++ (mid ++ rest) ∧
      out = pre ++ (indent ++ (patchedLine ++ rest)) ∧
      pre.getLast? = some '\n' ∧
      (∀ c ∈ indent, isIndentChar c = true) := by
  induction cs generalizing out with
  | nil => simp [subPointsGo] at h
  | cons c cs' ih =>
    simp only [subPointsGo] at h
    by_cases hc : (c == '\n') = true
    · rw [if_pos hc] at h
      have hcn : c = '\n' := by simpa using hc
      cases hp : pattern2At cs' with
      | some pr =>
        rcases pr with ⟨indent, r⟩
        rw [hp] at h
        simp only at h
        rcases pattern2At_decomp cs' indent r hp with ⟨⟨m, hm⟩, hind⟩
        refine ⟨[c], m, r, indent, by simp [hm], ?_, by simp [hcn], hind⟩
        rw [← Option.some.inj h]
        simp
      | none =>
        rw [hp] at h
        rcases Option.map_eq_some'.mp h with ⟨out', hout', hcons⟩
        rcases ih out' hout' with ⟨pre, mid, rest, indent, e1, e2, e3, e4⟩
        refine ⟨c :: pre, mid, rest, indent, by simp [e1], ?_, ?_, e4⟩
        · rw [← hcons, e2]; rfl
        · have : pre ≠ [] := by
            intro hp0
            rw [hp0] at e3
            simp at e3
          rw [List.getLast?_cons, e3]
          cases pre with
          | nil => exact absurd rfl this
          | cons _ _ => rfl
    · rw [if_neg hc] at h
      rcases Option.map_eq_some'.mp h with ⟨out', hout', hcons⟩
      rcases ih out' hout' with ⟨pre, mid, rest, indent, e1, e2, e3, e4⟩
      refine ⟨c :: pre, mid, rest, indent, by simp [e1], ?_, ?_, e4⟩
      · rw [← hcons, e2]; rfl
      · have : pre ≠ [] := by
          intro hp0
          rw [hp0] at e3
          simp at e3
        rw [List.getLast?_cons, e3]
        cases pre with
        | nil => exact absurd rfl this
        | cons _ _ => rfl

theorem subPoints_shape (cs out : List Char) (h : subPoints cs = some out) :
    ∃ pre mid rest indent,
      cs = pre ++ (mid ++ rest) ∧
      out = pre ++ (indent ++ (patchedLine ++ rest)) ∧
      (pre = [] ∨ pre.getLast? = some '\n') ∧
      (∀ c ∈ indent, isIndentChar c = true) := by
  unfold subPoints at h
  cases hp : pattern2At cs with
  | some pr =>
    rcases pr with ⟨indent, r⟩
    rw [hp] at h
    simp only at h
    rcases pattern2At_decomp cs indent r hp with ⟨⟨m, hm⟩, hind⟩
    exact ⟨[], m, r, indent, by simpa using hm, by simpa using (Option.some.inj h).symm,
      Or.inl rfl, hind⟩
  | none =>
    rw [hp] at h
    rcases subPointsGo_shape cs out h with ⟨pre, mid, rest, indent, e1, e2, e3, e4⟩
    exact ⟨pre, mid, rest, indent, e1, e2, Or.inr e3, e4⟩


theorem containsCRLF_split (a b : List Char) (h : containsCRLF (a ++ b) = false) :
    containsCRLF a = false ∧ containsCRLF b = false := by
  induction a with
  | nil => exact ⟨rfl, by simpa using h⟩
  | cons x a' ih =>
    rw [List.cons_append, containsCRLF_cons] at h
    rcases Bool.or_eq_false_iff.mp h with ⟨h1, h2⟩
    rcases ih h2 with ⟨ha', hb⟩
    refine ⟨?_, hb⟩
    rw [containsCRLF_cons]
    refine Bool.or_eq_false_iff.mpr ⟨?_, ha'⟩
    cases a' with
    | nil => simp
    | cons y a'' => simpa using h1

theorem containsCRLF_append_no (a b : List Char) (ha : containsCRLF a = false)
    (hb : containsCRLF b = false)
    (hab : a.getLast? = some '\r' → b.head? ≠ some '\n') :
    containsCRLF (a ++ b) = false := by
  induction a with
  | nil => simpa using hb
  | cons x a' ih =>
    rw [List.cons_append, containsCRLF_cons]
    rw [containsCRLF_cons] at ha
    rcases Bool.or_eq_false_iff.mp ha with ⟨h1, h2⟩
    refine Bool.or_eq_false_iff.mpr ⟨?_, ?_⟩
    · cases a' with
      | nil =>
        by_cases hx : x = '\r'
        · subst hx
          have hbn := hab (by simp)
          simp only [List.nil_append]
          cases hh : b.head? with
          | none => simp
          | some z =>
            have : z ≠ '\n' := fun he => hbn (by rw [hh, he])
            simp [this]
        · simp [hx]
      | cons y a'' => simpa using h1
    · apply ih h2
      intro hl
      apply hab
      cases a' with
      | nil => simp at hl
      | cons y a'' => rw [List.getLast?_cons_cons]; exact hl

theorem alreadyOkAt_patched (indent rest : List Char)
    (hi : ∀ c ∈ indent, isIndentChar c = true) :
    alreadyOkAt (indent ++ (patchedLine ++ rest)) = wsToEol rest := by
  have hsplit : (patchedLine ++ rest : List Char) =
      'p' :: ("oints: list[PTagSeriesPoint] = Field(default_factory=list)  # type: ignore".data
        ++ rest) := rfl
  have h1 : (indent ++ (patchedLine ++ rest)).dropWhile isIndentChar =
      patchedLine ++ rest := by
    rw [(takeWhile_append_all isIndentChar indent (patchedLine ++ rest) hi).2]
    rw [hsplit, List.dropWhile_cons, if_neg (by decide)]
  simp only [alreadyOkAt]
  rw [h1]
  rfl

theorem searchGo_of_suffix (xs ys : List Char) (h : alreadyOkAt ys = true) :
    searchAlreadyOkGo (xs ++ '\n' :: ys) = true := by
  induction xs with
  | nil => simp [searchAlreadyOkGo, h]
  | cons x xs' ih => simp [searchAlreadyOkGo, ih]

theorem noCRLF_patched_shape (p i r : List Char)
    (hp : containsCRLF p = false) (hr : containsCRLF r = false)
    (hpe : p = [] ∨ p.getLast? = some '\n')
    (hi : ∀ c ∈ i, isIndentChar c = true) :
    containsCRLF (p ++ (i ++ (patchedLine ++ r))) = false := by
  have hpatched : containsCRLF patchedLine = false := by decide
  have h1 : containsCRLF (patchedLine ++ r) = false := by
    apply containsCRLF_append_no _ _ hpatched hr
    intro hl
    exact absurd hl (by decide)
  have hino : containsCRLF i = false := by
    have hnocr : ∀ c ∈ i, (c == '\r') = false := by
      intro c hc
      have hic := hi c hc
      simp only [isIndentChar, Bool.or_eq_true, beq_iff_eq] at hic
      rcases hic with h | h <;> (subst h; decide)
    have := containsCRLF_append i [] hnocr rfl
    simpa using this
  have h2 : containsCRLF (i ++ (patchedLine ++ r)) = false := by
    apply containsCRLF_append_no _ _ hino h1
    intro hl
    rcases List.getLast?_eq_some_iff.mp hl with ⟨i', hi'⟩
    have : '\r' ∈ i := by rw [hi']; simp
    have := hi '\r' this
    exact absurd this (by decide)
  rcases hpe with rfl | hpl
  · simpa using h2
  · apply containsCRLF_append_no _ _ hp h2
    intro hl
    rw [hpl] at hl
    exact absurd (Option.some.inj hl) (by decide)

/-- C6: the patch is a no-op (returns false, no write) whenever the
already-patched form is present or the declaration pattern is absent.  Its
claimed idempotence after a successful run holds only when the patched
declaration reaches its line end: a successful run rewrites the text to
`pre ++ indent ++ patchedLine ++ rest` at a line start, and a second run
returns false and changes nothing provided `rest` is whitespace up to a line
end (the counterexample shows a second run patches again otherwise). -/
theorem claim_C6_fix_points_field (text pre indent rest : List Char) :
    (searchAlreadyOk text = true → fix_points_field text = (false, text)) ∧
    (searchAlreadyOk text = false → subPoints text = none →
      fix_points_field text = (false, text)) ∧
    (containsCRLF text = false → (fix_points_field text).1 = true →
      ∃ p m r i, text = p ++ (m ++ r) ∧
        (fix_points_field text).2 = p ++ (i ++ (patchedLine ++ r)) ∧
        (p = [] ∨ p.getLast? = some '\n') ∧ (∀ c ∈ i, isIndentChar c = true)) ∧
    ((pre = [] ∨ pre.getLast? = some '\n') → (∀ c ∈ indent, isIndentChar c = true) →
      wsToEol rest = true →
      fix_points_field (pre ++ (indent ++ (patchedLine ++ rest))) =
        (false, pre ++ (indent ++ (patchedLine ++ rest)))) := by
  refine ⟨?_, ?_, ?_, ?_⟩
  · intro h
    unfold fix_points_field
    rw [if_pos h]
  · intro h1 h2
    unfold fix_points_field
    rw [if_neg (by simp [h1]), h2]
  · intro hcrlf htrue
    unfold fix_points_field at htrue ⊢
    by_cases hs : searchAlreadyOk text = true
    · rw [if_pos hs] at htrue
      exact absurd htrue (by simp)
    · rw [if_neg hs] at htrue ⊢
      cases hsub : subPoints text with
      | none =>
        rw [hsub] at htrue
        exact absurd htrue (by simp)
      | some t2 =>
        rcases subPoints_shape text t2 hsub with ⟨p, m, r, i, e1, e2, e3, e4⟩
        refine ⟨p, m, r, i, e1, ?_, e3, e4⟩
        have hsplit1 := containsCRLF_split p (m ++ r) (by rw [← e1]; exact hcrlf)
        have hsplit2 := containsCRLF_split m r hsplit1.2
        have hno : containsCRLF (p ++ (i ++ (patchedLine ++ r))) = false :=
          noCRLF_patched_shape p i r hsplit1.1 hsplit2.2 e3 e4
        simp only [hsub]
        rw [e2]
        simp [normalize_line_endings, hno]
  · intro h1 h2 h3
    have hok : alreadyOkAt (indent ++ (patchedLine ++ rest)) = true := by
      rw [alreadyOkAt_patched indent rest h2]
      exact h3
    have hsearch : searchAlreadyOk (pre ++ (indent ++ (patchedLine ++ rest))) = true := by
      rcases h1 with rfl | hpl
      · simp only [List.nil_append]
        unfold searchAlreadyOk
        rw [hok]
        rfl
      · rcases List.getLast?_eq_some_iff.mp hpl with ⟨pre', hpre⟩
        unfold searchAlreadyOk
        rw [hpre, List.append_assoc, List.singleton_append]
        rw [searchGo_of_suffix pre' _ hok]
        simp
    unfold fix_points_field
    rw [if_pos hsearch]

/-- Witness for C6 at concrete texts: an already-patched file and a
pattern-free file are untouched with result false; a patchable file (CRLF
free) rewrites into the patched shape; and a text of the patched shape whose
remainder reaches the line end is left unchanged with result false. -/
theorem claim_C6_witness :
    fix_points_field
        "points: list[PTagSeriesPoint] = Field(default_factory=list)\n".data =
      (false, "points: list[PTagSeriesPoint] = Field(default_factory=list)\n".data) ∧
    fix_points_field "nothing here\n".data = (false, "nothing here\n".data) ∧
    (∃ p m r i,
      ("points: list[PTagSeriesPoint] = Field(None)\n".data : List Char) =
        p ++ (m ++ r) ∧
      (fix_points_field "points: list[PTagSeriesPoint] = Field(None)\n".data).2 =
        p ++ (i ++ (patchedLine ++ r)) ∧
      (p = [] ∨ p.getLast? = some '\n') ∧ (∀ c ∈ i, isIndentChar c = true)) ∧
    fix_points_field ("x\n".data ++ ("  ".data ++ (patchedLine ++ "\nmore".data))) =
      (false, "x\n".data ++ ("  ".data ++ (patchedLine ++ "\nmore".data))) :=
  ⟨(claim_C6_fix_points_field
      "points: list[PTagSeriesPoint] = Field(default_factory=list)\n".data [] [] []).1
      (by decide),
   (claim_C6_fix_points_field "nothing here\n".data [] [] []).2.1 (by decide) (by decide),
   (claim_C6_fix_points_field "points: list[PTagSeriesPoint] = Field(None)\n".data
      [] [] []).2.2.1 (by decide) (by decide),
   (claim_C6_fix_points_field [] "x\n".data "  ".data "\nmore".data).2.2.2
      (by decide) (by decide) (by decide)⟩


end PTagPipeline
